import Mathlib

/-!
Verification of the mcp-tool-router core engine (catalog, working-set
manager, result reducer, tokenizer and BM25 search) against its
natural-language specification.  Each subsystem is shallowly embedded from
the TypeScript source: JavaScript `Map`/`Record` values become
insertion-ordered association lists, machine numbers become `Int`/`ℚ`
(with `ℝ` only where the source computes with `Math.log`), JS strings are
modelled as Lean `String`s except where UTF-16 code-unit behaviour is the
point, where they are lists of code units.
-/

namespace Catalog

/-- `ToolArgCard` from shared/types: one argument descriptor of a tool. -/
structure ToolArgCard where
  name : String
  description : Option String := none
  typeHint : Option String := none
  required : Option Bool := none
  exampleStr : Option String := none  -- source field `example` (Lean keyword)
deriving DecidableEq

/-- `ToolExample` from shared/types. -/
structure ToolExample where
  query : String
  callHint : Option String := none
deriving DecidableEq

/-- `SideEffect` union type from shared/types. -/
inductive SideEffect where
  | none | read | write | destructive
deriving DecidableEq

/-- `CostHint` union type from shared/types. -/
inductive CostHint where
  | low | medium | high
deriving DecidableEq

/-- `ToolCard` from shared/types: the catalog entry.  `popularity` is a JS
number, modelled as an exact rational. -/
structure ToolCard where
  toolId : String
  toolName : String
  serverId : String
  title : Option String := none
  description : Option String := none
  tags : List String := []
  synonyms : List String := []
  args : List ToolArgCard := []
  examples : List ToolExample := []
  sideEffect : Option SideEffect := Option.none
  openWorldHint : Option Bool := Option.none
  idempotentHint : Option Bool := Option.none
  authHint : List String := []
  costHint : Option CostHint := Option.none
  popularity : Option ℚ := Option.none
deriving DecidableEq

/-- `ToolSearchDoc` from shared/types: the nine-field search document. -/
structure ToolSearchDoc where
  id : String
  name : String
  title : String
  description : String
  tags : String
  synonyms : String
  argNames : String
  argDescs : String
  examples : String
  serverId : String
deriving DecidableEq

/-- `Array.prototype.join(" ")`. -/
def joinSp (parts : List String) : String :=
  String.intercalate " " parts

/-- `buildSearchDoc` from catalog.ts: derives the search document from a
`ToolCard`. -/
def buildSearchDoc (tool : ToolCard) : ToolSearchDoc :=
  let argNames := joinSp (tool.args.map (·.name))
  let argDescs := joinSp (tool.args.map (fun a => a.description.getD ""))
  let examples := joinSp (tool.examples.map
    (fun e => e.query ++ " " ++ e.callHint.getD ""))
  { id := tool.toolId
    name := tool.toolName
    title := tool.title.getD ""
    description := tool.description.getD ""
    tags := joinSp tool.tags
    synonyms := joinSp tool.synonyms
    argNames := argNames
    argDescs := argDescs
    examples := examples
    serverId := tool.serverId }

/-- JS `Map` modelled as an insertion-ordered association list with unique
keys.  `mapSet` is `Map.prototype.set`: overwrite in place, or append a new
key at the end. -/
def mapSet {β : Type} : List (String × β) → String → β → List (String × β)
  | [], k, v => [(k, v)]
  | (k', v') :: rest, k, v =>
      if k' = k then (k, v) :: rest else (k', v') :: mapSet rest k v

/-- `Map.prototype.delete` (ignoring the returned Boolean): removes the
entry with the given key. -/
def mapDelete {β : Type} (m : List (String × β)) (k : String) :
    List (String × β) :=
  m.filter (fun p => p.1 ≠ k)

/-- `Map.prototype.has`. -/
def mapHas {β : Type} (m : List (String × β)) (k : String) : Bool :=
  m.any (fun p => p.1 = k)

/-- The key sequence of a map. -/
def keysOf {β : Type} (m : List (String × β)) : List String :=
  m.map (·.1)

/-- The state of `InMemoryCatalog`: the two maps, the version counter and
`updatedAt`.  `new Date().toISOString()` is modelled by an abstract clock
value `Nat` supplied to each mutating operation. -/
structure CatalogState where
  tools : List (String × ToolCard)
  docs : List (String × ToolSearchDoc)
  version : Nat
  updatedAt : Nat
deriving DecidableEq

/-- The freshly constructed catalog (`tools`/`docs` empty, `version = 0`). -/
def emptyCatalog : CatalogState :=
  { tools := [], docs := [], version := 0, updatedAt := 0 }

/-- `InMemoryCatalog.upsertTools`: set each card in both maps, then bump
`version`/`updatedAt` iff the input list is non-empty.  Returns the new
state and the reported `count` (the input length). -/
def upsertTools (now : Nat) (s : CatalogState) (tools : List ToolCard) :
    CatalogState × Nat :=
  let maps := tools.foldl
    (fun (acc : List (String × ToolCard) × List (String × ToolSearchDoc)) t =>
      (mapSet acc.1 t.toolId t, mapSet acc.2 t.toolId (buildSearchDoc t)))
    (s.tools, s.docs)
  if 0 < tools.length then
    ({ tools := maps.1, docs := maps.2, version := s.version + 1,
       updatedAt := now }, tools.length)
  else
    ({ s with tools := maps.1, docs := maps.2 }, tools.length)

/-- `InMemoryCatalog.removeTools`: delete each present key from both maps,
counting how many were present; bump `version`/`updatedAt` iff the count is
positive.  Returns the new state and the removed count. -/
def removeTools (now : Nat) (s : CatalogState) (toolIds : List String) :
    CatalogState × Nat :=
  let step := toolIds.foldl
    (fun (acc : List (String × ToolCard) × List (String × ToolSearchDoc) × Nat) id =>
      if mapHas acc.1 id then
        (mapDelete acc.1 id, mapDelete acc.2.1 id, acc.2.2 + 1)
      else acc)
    (s.tools, s.docs, 0)
  if 0 < step.2.2 then
    ({ tools := step.1, docs := step.2.1, version := s.version + 1,
       updatedAt := now }, step.2.2)
  else
    ({ s with tools := step.1, docs := step.2.1 }, step.2.2)

/-- `InMemoryCatalog.reset`: clear both maps and bump `version`, or do
nothing when the `tools` map is already empty. -/
def resetCatalog (now : Nat) (s : CatalogState) : CatalogState :=
  if s.tools.length = 0 then s
  else { tools := [], docs := [], version := s.version + 1, updatedAt := now }

/-- `CatalogStats` as returned by `InMemoryCatalog.stats`. -/
structure CatalogStats where
  tools : Nat
  indexSize : Nat
  updatedAt : Nat
deriving DecidableEq

/-- `InMemoryCatalog.stats`. -/
def stats (s : CatalogState) : CatalogStats :=
  { tools := s.tools.length, indexSize := s.docs.length,
    updatedAt := s.updatedAt }

/-- `CatalogSnapshot` as returned by `InMemoryCatalog.getSnapshot` (the two
maps are handed out directly). -/
structure CatalogSnapshot where
  version : Nat
  updatedAt : Nat
  tools : List (String × ToolCard)
  docs : List (String × ToolSearchDoc)
deriving DecidableEq

/-- `InMemoryCatalog.getSnapshot`. -/
def getSnapshot (s : CatalogState) : CatalogSnapshot :=
  { version := s.version, updatedAt := s.updatedAt, tools := s.tools,
    docs := s.docs }

/-- One externally reachable catalog mutation, with its clock value. -/
inductive CatOp where
  | upsert (now : Nat) (tools : List ToolCard)
  | remove (now : Nat) (toolIds : List String)
  | reset (now : Nat)

/-- Apply one mutation to a catalog state. -/
def applyOp (s : CatalogState) : CatOp → CatalogState
  | .upsert now ts => (upsertTools now s ts).1
  | .remove now ids => (removeTools now s ids).1
  | .reset now => resetCatalog now s

/-- Run a sequence of mutations from the empty catalog. -/
def runOps (ops : List CatOp) : CatalogState :=
  ops.foldl applyOp emptyCatalog

theorem keysOf_mapSet {β : Type} (m : List (String × β)) (k : String) (v : β) :
    keysOf (mapSet m k v) =
      if k ∈ keysOf m then keysOf m else keysOf m ++ [k] := by
  induction m with
  | nil => simp [mapSet, keysOf]
  | cons p rest ih =>
      obtain ⟨k', v'⟩ := p
      by_cases h : k' = k
      · simp [mapSet, keysOf, h]
      · have h' : k ≠ k' := fun hk => h hk.symm
        simp only [mapSet, keysOf, List.map_cons] at ih ⊢
        rw [if_neg h]
        simp only [List.map_cons]
        by_cases hmem : k ∈ List.map (fun x => x.1) rest
        · have hcond : k ∈ k' :: List.map (fun x => x.1) rest := by simp [hmem]
          rw [if_pos hcond]
          rw [if_pos hmem] at ih
          simp [ih]
        · have hcond : ¬ (k ∈ k' :: List.map (fun x => x.1) rest) := by
            simp [hmem, h']
          rw [if_neg hcond]
          rw [if_neg hmem] at ih
          simp [ih]

theorem keysOf_mapSet_congr {β γ : Type} (m₁ : List (String × β))
    (m₂ : List (String × γ)) (k : String) (v₁ : β) (v₂ : γ)
    (h : keysOf m₁ = keysOf m₂) :
    keysOf (mapSet m₁ k v₁) = keysOf (mapSet m₂ k v₂) := by
  rw [keysOf_mapSet, keysOf_mapSet, h]

theorem keysOf_mapDelete {β : Type} (m : List (String × β)) (k : String) :
    keysOf (mapDelete m k) = (keysOf m).filter (fun x => x ≠ k) := by
  induction m with
  | nil => simp [mapDelete, keysOf]
  | cons p rest ih =>
      by_cases h : p.1 = k <;>
        simp [mapDelete, keysOf, h] at ih ⊢ <;> simpa [mapDelete, keysOf] using ih

/-- The tools/docs key sets stay equal across `upsertTools`. -/
theorem upsert_keys_eq (now : Nat) (s : CatalogState) (ts : List ToolCard)
    (h : keysOf s.tools = keysOf s.docs) :
    keysOf (upsertTools now s ts).1.tools = keysOf (upsertTools now s ts).1.docs := by
  suffices hfold : ∀ (acc : List (String × ToolCard) × List (String × ToolSearchDoc)),
      keysOf acc.1 = keysOf acc.2 →
      keysOf (ts.foldl
        (fun acc t => (mapSet acc.1 t.toolId t, mapSet acc.2 t.toolId (buildSearchDoc t)))
        acc).1 =
      keysOf (ts.foldl
        (fun acc t => (mapSet acc.1 t.toolId t, mapSet acc.2 t.toolId (buildSearchDoc t)))
        acc).2 by
    by_cases hl : 0 < ts.length <;>
      simp [upsertTools, hl] <;> exact hfold (s.tools, s.docs) h
  intro acc hacc
  induction ts generalizing acc with
  | nil => exact hacc
  | cons t rest ih =>
      exact ih _ (keysOf_mapSet_congr _ _ _ _ _ hacc)

/-- The tools/docs key sets stay equal across `removeTools`. -/
theorem remove_keys_eq (now : Nat) (s : CatalogState) (ids : List String)
    (h : keysOf s.tools = keysOf s.docs) :
    keysOf (removeTools now s ids).1.tools = keysOf (removeTools now s ids).1.docs := by
  suffices hfold : ∀ (acc : List (String × ToolCard) × List (String × ToolSearchDoc) × Nat),
      keysOf acc.1 = keysOf acc.2.1 →
      keysOf (ids.foldl
        (fun acc id => if mapHas acc.1 id then
            (mapDelete acc.1 id, mapDelete acc.2.1 id, acc.2.2 + 1) else acc)
        acc).1 =
      keysOf (ids.foldl
        (fun acc id => if mapHas acc.1 id then
            (mapDelete acc.1 id, mapDelete acc.2.1 id, acc.2.2 + 1) else acc)
        acc).2.1 by
    have := hfold (s.tools, s.docs, 0) h
    by_cases hl : 0 < (ids.foldl
        (fun acc id => if mapHas acc.1 id then
            (mapDelete acc.1 id, mapDelete acc.2.1 id, acc.2.2 + 1) else acc)
        (s.tools, s.docs, 0)).2.2 <;>
      simp [removeTools, hl] <;> exact this
  intro acc hacc
  induction ids generalizing acc with
  | nil => exact hacc
  | cons id rest ih =>
      by_cases hhas : mapHas acc.1 id
      · refine ih _ ?_
        simp [hhas]
        rw [keysOf_mapDelete, keysOf_mapDelete, hacc]
      · simpa [hhas] using ih _ hacc

/-- The tools/docs key sets stay equal across `reset`. -/
theorem reset_keys_eq (now : Nat) (s : CatalogState)
    (h : keysOf s.tools = keysOf s.docs) :
    keysOf (resetCatalog now s).tools = keysOf (resetCatalog now s).docs := by
  by_cases hl : s.tools.length = 0
  · simpa [resetCatalog, hl] using h
  · simp [resetCatalog, hl, keysOf]

theorem runOps_keys_eq (ops : List CatOp) :
    keysOf (runOps ops).tools = keysOf (runOps ops).docs := by
  suffices hgen : ∀ s, keysOf s.tools = keysOf s.docs →
      keysOf (ops.foldl applyOp s).tools = keysOf (ops.foldl applyOp s).docs by
    exact hgen emptyCatalog rfl
  intro s hs
  induction ops generalizing s with
  | nil => exact hs
  | cons op rest ih =>
      cases op with
      | upsert now ts => exact ih _ (upsert_keys_eq now s ts hs)
      | remove now ids => exact ih _ (remove_keys_eq now s ids hs)
      | reset now => exact ih _ (reset_keys_eq now s hs)

/-- A minimal concrete card used by concrete catalog scenarios. -/
def sampleCard : ToolCard :=
  { toolId := "slack:post_message", toolName := "post_message",
    serverId := "slack" }

/-- C2: in every catalog state reachable from the empty catalog by any
sequence of `upsertTools`, `removeTools` and `reset`, the key sequence of
the `tools` map equals the key sequence of the `docs` map; consequently
`stats()` reports `tools == indexSize` and `getSnapshot()` exposes two
maps with identical key sets. -/
theorem catalog_keys_invariant (ops : List CatOp) :
    keysOf (runOps ops).tools = keysOf (runOps ops).docs
    ∧ (stats (runOps ops)).tools = (stats (runOps ops)).indexSize
    ∧ keysOf (getSnapshot (runOps ops)).tools =
        keysOf (getSnapshot (runOps ops)).docs := by
  have h := runOps_keys_eq ops
  refine ⟨h, ?_, by simpa [getSnapshot] using h⟩
  have hlen := congrArg List.length h
  simpa [stats, keysOf] using hlen

/-- C5 counterexample: upserting the very same card twice bumps `version`
both times, so upserting a non-empty list identical to the stored entries
does change `version`, contradicting the claim. -/
theorem upsert_identical_bumps_version :
    ((upsertTools 1 (upsertTools 0 emptyCatalog [sampleCard]).1
        [sampleCard]).1).version ≠
      ((upsertTools 0 emptyCatalog [sampleCard]).1).version := by
  decide

/-- C5 (amended): `upsertTools` bumps `version` iff its input list is
non-empty (even when every card is identical to the stored entry);
`removeTools` bumps iff at least one listed key was present (its returned
count is positive); `reset` bumps iff the store was non-empty.  In
particular `upsertTools []`, `removeTools []` and `reset` on an empty
store never change `version`. -/
theorem catalog_version_semantics (now : Nat) (s : CatalogState)
    (ts : List ToolCard) (ids : List String) :
    (upsertTools now s ts).1.version =
        (if 0 < ts.length then s.version + 1 else s.version)
    ∧ (removeTools now s ids).1.version =
        (if 0 < (removeTools now s ids).2 then s.version + 1 else s.version)
    ∧ (resetCatalog now s).version =
        (if s.tools.length = 0 then s.version else s.version + 1) := by
  refine ⟨?_, ?_, ?_⟩
  · by_cases h : 0 < ts.length <;> simp [upsertTools, h]
  · by_cases h : 0 < (ids.foldl
        (fun acc id => if mapHas acc.1 id then
            (mapDelete acc.1 id, mapDelete acc.2.1 id, acc.2.2 + 1) else acc)
        (s.tools, s.docs, 0)).2.2 <;>
      simp [removeTools, h]
  · by_cases h : s.tools.length = 0 <;> simp [resetCatalog, h]

end Catalog

namespace Utf16

/-!
Model of `truncateByBytes` from src/core/utils.ts at JavaScript string
granularity: a JS string is a sequence of UTF-16 code units
(`Nat`s below `2^16`), `text.length`/`text.slice` count code units, and
`byteLength` is the length of `new TextEncoder().encode(text)`, which
encodes a surrogate pair as 4 bytes and an unpaired surrogate as the
3-byte replacement character U+FFFD (WHATWG USVString conversion).
-/

/-- A JS string as its UTF-16 code-unit sequence. -/
abbrev JsStr := List Nat

/-- Is the code unit a high (leading) surrogate? -/
def isHigh (u : Nat) : Bool := 0xD800 ≤ u ∧ u < 0xDC00

/-- Is the code unit a low (trailing) surrogate? -/
def isLow (u : Nat) : Bool := 0xDC00 ≤ u ∧ u < 0xE000

/-- UTF-8 byte count of one code unit outside a surrogate pair: ASCII 1
byte, up to U+07FF 2 bytes, all other BMP units — including an unpaired
surrogate, which the encoder replaces with U+FFFD — 3 bytes. -/
def unitLen (u : Nat) : Nat :=
  if u < 0x80 then 1 else if u < 0x800 then 2 else 3

/-- UTF-8 byte count of `TextEncoder().encode` on a code-unit sequence: a
high surrogate directly followed by a low surrogate encodes as 4 bytes,
any other unit as `unitLen`. -/
def utf8Len : List Nat → Nat
  | [] => 0
  | [u] => unitLen u
  | u :: v :: rest =>
      if isHigh u && isLow v then 4 + utf8Len rest
      else unitLen u + utf8Len (v :: rest)

/-- `byteLength` from utils.ts. -/
def byteLength (s : JsStr) : Nat := utf8Len s

/-- The binary-search loop of `truncateByBytes`: while `low < high`, test
the code-unit prefix of length `mid = ⌈(low+high)/2⌉`.  `fuel` bounds the
iteration count; `high - low` shrinks every round, so any
`fuel ≥ s.length + 1` is enough. -/
def searchLoop (s : List Nat) (maxBytes : Int) :
    Nat → Nat → Nat → Nat
  | 0, low, _ => low
  | fuel + 1, low, high =>
      if low < high then
        let mid := (low + high + 1) / 2
        if (utf8Len (s.take mid) : Int) ≤ maxBytes then
          searchLoop s maxBytes fuel mid high
        else
          searchLoop s maxBytes fuel low (mid - 1)
      else low

/-- `truncateByBytes` from utils.ts on code units.  `maxBytes` is an `Int`
because the byte cap reaches this function unvalidated. -/
def truncateByBytes (s : JsStr) (maxBytes : Int) : JsStr × Int :=
  if maxBytes ≤ 0 then ([], (byteLength s : Int))
  else
    let totalBytes := byteLength s
    if (totalBytes : Int) ≤ maxBytes then (s, 0)
    else
      let low := searchLoop s maxBytes (List.length s + 1) 0 (List.length s)
      let truncated := s.take low
      (truncated, (totalBytes : Int) - (byteLength truncated : Int))

/-- A code-unit sequence is well-formed when every high surrogate is
followed by a low surrogate and no low surrogate appears bare. -/
def wellFormed : List Nat → Bool
  | [] => true
  | u :: rest =>
      if isHigh u then
        match rest with
        | v :: rest' => isLow v && wellFormed rest'
        | [] => false
      else if isLow u then false
      else wellFormed rest

/-- C3: `truncateByBytes` on the string `"a😀"` (code units
`[0x61, 0xD83D, 0xDE00]`, UTF-8 length 5) with `maxBytes = 4` keeps the
2-code-unit prefix, splitting the surrogate pair: the result ends in an
unpaired high surrogate and is not well-formed Unicode, although the
longest well-formed prefix within 4 bytes is `"a"` alone.  This refutes
the claim that a multi-byte code point is never split and that the result
is always well-formed. -/
theorem truncate_splits_surrogate_pair :
    truncateByBytes [0x61, 0xD83D, 0xDE00] 4 = ([0x61, 0xD83D], 1)
    ∧ wellFormed [0x61, 0xD83D] = false
    ∧ wellFormed [0x61] = true ∧ byteLength [0x61] ≤ 4 := by
  refine ⟨?_, by decide, by decide, by decide⟩
  decide

end Utf16

/-- Code-point lexicographic "less or equal" on character lists, used to
model JS string comparison (`<`/`localeCompare`/default `Array sort`)
with a comparison that the kernel can evaluate. -/
def charListLE : List Char → List Char → Bool
  | [], _ => true
  | _ :: _, [] => false
  | c :: cs, d :: ds =>
      if c.toNat = d.toNat then charListLE cs ds
      else decide (c.toNat < d.toNat)

/-- Lexicographic "less or equal" on strings. -/
def strLEb (a b : String) : Bool := charListLE a.data b.data

/-- `strLEb` as a relation, for `List.insertionSort`. -/
def strRel (a b : String) : Prop := strLEb a b = true

instance : DecidableRel strRel := fun a b =>
  instDecidableEqBool (strLEb a b) true

namespace WorkingSet

/-!
Model of `InMemoryWorkingSetManager` (workingset.ts) at the level of a
single session state.  The JS `Record<string, WorkingSetEntry>` becomes an
insertion-ordered list of entries with unique `toolId`s (string keys of
the ids in play are not array indices, so JS enumeration order is
insertion order).  The search engine and the catalog are the manager's
injected collaborators: `update` receives the hit list returned by
`this.search.query` as the parameter `hits`, and `getTokenCost` (catalog
lookup + `estimateToolTokens`, or the configured default) as the parameter
`cost`.  The injected clock is the parameter `now`.  Timestamps and token
counts are JS numbers holding integers, modelled as `Int`; `scoreHint`
holds a search score, modelled as an exact rational. -/

/-- `WorkingSetEntry` from shared/types. -/
structure WSEntry where
  toolId : String
  pinned : Bool
  lastUsedAt : Int
  lastSelectedAt : Int
  ttlMs : Option Int
  tokenCost : Int
  scoreHint : Option ℚ
deriving DecidableEq

/-- `WorkingSetState` from shared/types (entries as an ordered unique-key
list). -/
structure WSState where
  sessionId : String
  budgetTokens : Int
  usedTokens : Int
  entries : List WSEntry
deriving DecidableEq

/-- `WorkingSetOptions` after merging with `DEFAULT_WORKING_SET_OPTIONS`
(`defaultTopK` only determines the query the engine answers, which is
abstracted into the `hits` parameter of `update`). -/
structure WSOptions where
  defaultTtlMs : Int
  defaultTokenCost : Int
  defaultBudgetTokens : Int
  maxEntries : Int
deriving DecidableEq

/-- The merged defaults from `DEFAULT_WORKING_SET_OPTIONS`. -/
def defaultOptions : WSOptions :=
  { defaultTtlMs := 0, defaultTokenCost := 120, defaultBudgetTokens := 0,
    maxEntries := 0 }

/-- `this.options.defaultTtlMs || undefined`: `0` is falsy. -/
def optTtl (v : Int) : Option Int := if v = 0 then none else some v

/-- Lookup of `state.entries[toolId]`. -/
def findE (es : List WSEntry) (t : String) : Option WSEntry :=
  es.find? (fun e => e.toolId = t)

/-- In-place mutation of the entry stored under `t` (the JS code mutates
the object held in the record, keeping its position). -/
def replaceE : List WSEntry → String → WSEntry → List WSEntry
  | [], _, _ => []
  | e :: rest, t, e' =>
      if e.toolId = t then e' :: rest else e :: replaceE rest t e'

/-- `delete state.entries[toolId]`. -/
def delE (es : List WSEntry) (t : String) : List WSEntry :=
  es.filter (fun e => e.toolId ≠ t)

/-- The key sequence of an entry list. -/
def keysE (es : List WSEntry) : List String := es.map (·.toolId)

/-- `computeUsedTokens`: the sum of `tokenCost` over all entries. -/
def sumCost (es : List WSEntry) : Int := (es.map (·.tokenCost)).sum

/-- `Set.prototype.add` on a set modelled as a duplicate-free list in
insertion order. -/
def addSet (l : List String) (t : String) : List String :=
  if t ∈ l then l else l ++ [t]

/-- `WorkingSetUpdateInput` (the `query`/`topK` fields select the hit list,
which `update` receives directly). -/
structure UpdateInput where
  budgetTokens : Int
  pin : List String
  unpin : List String
deriving DecidableEq

/-- `WorkingSetUpdateResult`. -/
structure UpdateResult where
  selectedToolIds : List String
  addedToolIds : List String
  removedToolIds : List String
  budgetUsed : Int
  budgetTotal : Int
deriving DecidableEq

/-- The eviction-candidate comparator of `enforceBudget` /
`enforceMaxEntries` as a "sorts before or equal" test (ascending = evict
first): `lastSelectedAt` asc, then `lastUsedAt` asc, then `scoreHint` asc
with absent scores read as 0, then `toolId` asc (`localeCompare` modelled
as code-point order). -/
def evictLEb (a b : WSEntry) : Bool :=
  if a.lastSelectedAt = b.lastSelectedAt then
    if a.lastUsedAt = b.lastUsedAt then
      if a.scoreHint.getD 0 = b.scoreHint.getD 0 then
        strLEb a.toolId b.toolId
      else decide (a.scoreHint.getD 0 < b.scoreHint.getD 0)
    else decide (a.lastUsedAt < b.lastUsedAt)
  else decide (a.lastSelectedAt < b.lastSelectedAt)

/-- `evictLEb` as a relation, for `List.insertionSort`. -/
def evictRel (a b : WSEntry) : Prop := evictLEb a b = true

instance : DecidableRel evictRel := fun a b =>
  instDecidableEqBool (evictLEb a b) true

/-- The selection-order comparator of `selectEntries` as a "sorts before
or equal" test: pinned first, then `lastSelectedAt` desc, `lastUsedAt`
desc, `scoreHint` desc (absent = 0), then `toolId` asc. -/
def selLEb (a b : WSEntry) : Bool :=
  if a.pinned = b.pinned then
    if a.lastSelectedAt = b.lastSelectedAt then
      if a.lastUsedAt = b.lastUsedAt then
        if a.scoreHint.getD 0 = b.scoreHint.getD 0 then
          strLEb a.toolId b.toolId
        else decide (b.scoreHint.getD 0 < a.scoreHint.getD 0)
      else decide (b.lastUsedAt < a.lastUsedAt)
    else decide (b.lastSelectedAt < a.lastSelectedAt)
  else a.pinned

/-- `selLEb` as a relation, for `List.insertionSort`. -/
def selRel (a b : WSEntry) : Prop := selLEb a b = true

instance : DecidableRel selRel := fun a b =>
  instDecidableEqBool (selLEb a b) true

/-- `Array.from(set).sort()` on a string set. -/
def sortStrs (l : List String) : List String :=
  List.insertionSort strRel l

/-- The entry created for a missing pinned toolId in step 2 of `update`. -/
def newPinEntry (opts : WSOptions) (cost : String → Int) (now : Int)
    (t : String) : WSEntry :=
  { toolId := t, pinned := true, lastUsedAt := 0, lastSelectedAt := now,
    ttlMs := optTtl opts.defaultTtlMs, tokenCost := cost t,
    scoreHint := none }

/-- The entry created for a new search hit in step 5 of `update`. -/
def newHitEntry (opts : WSOptions) (cost : String → Int) (now : Int)
    (t : String) (sc : ℚ) : WSEntry :=
  { toolId := t, pinned := false, lastUsedAt := 0, lastSelectedAt := now,
    ttlMs := optTtl opts.defaultTtlMs, tokenCost := cost t,
    scoreHint := some sc }

/-- The entry `markUsed` creates for a missing toolId. -/
def newUsedEntry (opts : WSOptions) (cost : String → Int) (now : Int)
    (t : String) : WSEntry :=
  { toolId := t, pinned := false, lastUsedAt := now, lastSelectedAt := now,
    ttlMs := optTtl opts.defaultTtlMs, tokenCost := cost t,
    scoreHint := none }

/-- Step 2 of `update`: apply pins, accumulating the `added` set. -/
def applyPins (opts : WSOptions) (cost : String → Int) (now : Int)
    (st : List WSEntry × List String) (pins : List String) :
    List WSEntry × List String :=
  pins.foldl
    (fun acc t =>
      match findE acc.1 t with
      | some e =>
          (replaceE acc.1 t { e with pinned := true, lastSelectedAt := now },
           acc.2)
      | none => (acc.1 ++ [newPinEntry opts cost now t], addSet acc.2 t))
    st

/-- Step 3 of `update`: apply unpins (existing entries only). -/
def applyUnpins (es : List WSEntry) (unpins : List String) : List WSEntry :=
  unpins.foldl
    (fun es t =>
      match findE es t with
      | some e => replaceE es t { e with pinned := false }
      | none => es)
    es

/-- The TTL-expiry test of step 4: non-pinned, truthy positive `ttlMs`,
and `now - max(lastUsedAt, lastSelectedAt) > ttlMs`. -/
def expiredB (now : Int) (e : WSEntry) : Bool :=
  !e.pinned &&
    (match e.ttlMs with
     | some v => decide (0 < v) &&
         decide (v < now - max e.lastUsedAt e.lastSelectedAt)
     | none => false)

/-- Step 4 of `update`: drop expired entries, recording them in the
`removed` set in iteration order. -/
def applyTtl (now : Int) (es : List WSEntry) (removed : List String) :
    List WSEntry × List String :=
  (es.filter (fun e => !expiredB now e),
   ((es.filter (expiredB now)).map (·.toolId)).foldl addSet removed)

/-- Step 5 of `update`: fold the search hits into the entries,
accumulating the `added` set. -/
def applyHits (opts : WSOptions) (cost : String → Int) (now : Int)
    (st : List WSEntry × List String) (hits : List (String × ℚ)) :
    List WSEntry × List String :=
  hits.foldl
    (fun acc h =>
      match findE acc.1 h.1 with
      | some e =>
          (replaceE acc.1 h.1
            { e with lastSelectedAt := now, scoreHint := some h.2 },
           acc.2)
      | none =>
          (acc.1 ++ [newHitEntry opts cost now h.1 h.2], addSet acc.2 h.1))
    st

/-- The `while` loop of `enforceMaxEntries` over the sorted candidates. -/
def maxLoop (maxE : Int) :
    List WSEntry → List WSEntry → List String → List WSEntry × List String
  | [], es, rm => (es, rm)
  | c :: rest, es, rm =>
      if maxE < (es.length : Int) then
        maxLoop maxE rest (delE es c.toolId) (addSet rm c.toolId)
      else (es, rm)

/-- `enforceMaxEntries` (already guarded by `maxEntries > 0` at the call
site): when over the cap, evict non-pinned candidates in eviction order
until at or below the cap or no candidate is left. -/
def enforceMaxEntries (maxE : Int) (es : List WSEntry) (rm : List String) :
    List WSEntry × List String :=
  if (es.length : Int) ≤ maxE then (es, rm)
  else maxLoop maxE (List.insertionSort evictRel (es.filter (fun e => !e.pinned)))
    es rm

/-- The eviction loop of `enforceBudget`, tracking the running `used`
total. -/
def budgetLoop (budget : Int) :
    List WSEntry → List WSEntry → List String → Int →
      List WSEntry × List String × Int
  | [], es, rm, used => (es, rm, used)
  | c :: rest, es, rm, used =>
      if used ≤ budget then (es, rm, used)
      else budgetLoop budget rest (delE es c.toolId) (addSet rm c.toolId)
        (used - c.tokenCost)

/-- `enforceBudget`: when the cost sum exceeds the budget, evict non-pinned
candidates in eviction order until within budget or no candidate is
left. -/
def enforceBudget (budget : Int) (es : List WSEntry) (rm : List String) :
    List WSEntry × List String × Int :=
  let used := sumCost es
  if used ≤ budget then (es, rm, used)
  else budgetLoop budget
    (List.insertionSort evictRel (es.filter (fun e => !e.pinned))) es rm used

/-- `selectEntries`: all remaining entries in selection order. -/
def selectEntries (es : List WSEntry) : List String :=
  (List.insertionSort selRel es).map (·.toolId)

/-- Steps 1-6 of `update` (pins, unpins, TTL expiry, search hits,
max-entries cap): returns `((entries, added), removed)` as they stand just
before budget enforcement. -/
def preBudget (opts : WSOptions) (cost : String → Int) (now : Int)
    (hits : List (String × ℚ)) (s : WSState) (input : UpdateInput) :
    (List WSEntry × List String) × List String :=
  let p1 := applyPins opts cost now (s.entries, []) input.pin
  let es2 := applyUnpins p1.1 input.unpin
  let p3 := applyTtl now es2 []
  let p4 := applyHits opts cost now (p3.1, p1.2) hits
  let p5 := if 0 < opts.maxEntries then
      enforceMaxEntries opts.maxEntries p4.1 p3.2
    else (p4.1, p3.2)
  ((p5.1, p4.2), p5.2)

/-- `InMemoryWorkingSetManager.update` on a resolved session state: the
nine steps in source order.  `hits` is the list returned by
`this.search.query(...).hits` (toolId and score). -/
def update (opts : WSOptions) (cost : String → Int) (now : Int)
    (hits : List (String × ℚ)) (s : WSState) (input : UpdateInput) :
    WSState × UpdateResult :=
  let pre := preBudget opts cost now hits s input
  let p6 := enforceBudget input.budgetTokens pre.1.1 pre.2
  let addedF := pre.1.2.filter (fun t => !decide (t ∈ p6.2.1))
  let selected := selectEntries p6.1
  let used := sumCost p6.1
  ({ sessionId := s.sessionId, budgetTokens := input.budgetTokens,
     usedTokens := used, entries := p6.1 },
   { selectedToolIds := selected, addedToolIds := sortStrs addedF,
     removedToolIds := sortStrs p6.2.1, budgetUsed := used,
     budgetTotal := input.budgetTokens })

/-- `InMemoryWorkingSetManager.markUsed` on a resolved session state:
`ensureSession` first resets `budgetTokens` to the configured default
(its side effect on an existing session), then both timestamps of the
named entry are touched, creating a non-pinned entry when absent; the
stored `usedTokens` field is not recomputed. -/
def markUsed (opts : WSOptions) (cost : String → Int) (now : Int)
    (s : WSState) (t : String) : WSState :=
  let s := { s with budgetTokens := opts.defaultBudgetTokens }
  match findE s.entries t with
  | some e =>
      let e' : WSEntry := { e with lastUsedAt := now, lastSelectedAt := now }
      { s with entries := replaceE s.entries t e' }
  | none =>
      { s with entries := s.entries ++ [newUsedEntry opts cost now t] }

/-- The fresh session state `ensureSession`/`get` creates. -/
def freshState (sessionId : String) (budgetTokens : Int) : WSState :=
  { sessionId := sessionId, budgetTokens := budgetTokens, usedTokens := 0,
    entries := [] }

theorem findE_eq_none_iff {es : List WSEntry} {t : String} :
    findE es t = none ↔ t ∉ keysE es := by
  simp only [findE, List.find?_eq_none, keysE, List.mem_map, decide_eq_true_eq]
  constructor
  · rintro h ⟨e, he, rfl⟩
    exact h e he rfl
  · intro h e he heq
    exact h ⟨e, he, heq⟩

theorem findE_some {es : List WSEntry} {t : String} {e : WSEntry}
    (h : findE es t = some e) : e ∈ es ∧ e.toolId = t := by
  refine ⟨List.mem_of_find?_eq_some h, ?_⟩
  have := List.find?_some h
  simpa using this

theorem mem_replaceE {es : List WSEntry} {t : String} {e' x : WSEntry}
    (h : x ∈ replaceE es t e') : x ∈ es ∨ x = e' := by
  induction es with
  | nil => simp [replaceE] at h
  | cons e rest ih =>
      by_cases he : e.toolId = t
      · simp only [replaceE, he, if_true, List.mem_cons] at h
        rcases h with h | h
        · exact Or.inr h
        · exact Or.inl (List.mem_cons_of_mem _ h)
      · simp only [replaceE, he, if_false, List.mem_cons] at h
        rcases h with h | h
        · exact Or.inl (by simp [h])
        · rcases ih h with h' | h'
          · exact Or.inl (List.mem_cons_of_mem _ h')
          · exact Or.inr h'

theorem keysE_replaceE {es : List WSEntry} {t : String} {e' : WSEntry}
    (h : e'.toolId = t) : keysE (replaceE es t e') = keysE es := by
  induction es with
  | nil => simp [replaceE]
  | cons e rest ih =>
      by_cases he : e.toolId = t
      · simp [replaceE, keysE, he, h]
      · simp only [replaceE, he, if_false, keysE, List.map_cons] at ih ⊢
        rw [ih]

theorem keysE_append (es : List WSEntry) (e : WSEntry) :
    keysE (es ++ [e]) = keysE es ++ [e.toolId] := by
  simp [keysE]

theorem delE_sublist (es : List WSEntry) (t : String) :
    List.Sublist (delE es t) es :=
  List.filter_sublist es

theorem mem_delE {es : List WSEntry} {t : String} {x : WSEntry} :
    x ∈ delE es t ↔ x ∈ es ∧ x.toolId ≠ t := by
  simp [delE]

theorem nodup_keysE_of_sublist {es' es : List WSEntry}
    (h : List.Sublist es' es) (hnd : (keysE es).Nodup) :
    (keysE es').Nodup :=
  List.Nodup.sublist (List.Sublist.map _ h) hnd

theorem key_unique {es : List WSEntry} (hnd : (keysE es).Nodup)
    {e₁ e₂ : WSEntry} (h₁ : e₁ ∈ es) (h₂ : e₂ ∈ es)
    (heq : e₁.toolId = e₂.toolId) : e₁ = e₂ := by
  induction es with
  | nil => simp at h₁
  | cons e rest ih =>
      simp only [keysE, List.map_cons, List.nodup_cons] at hnd
      rcases List.mem_cons.mp h₁ with rfl | h₁'
      · rcases List.mem_cons.mp h₂ with rfl | h₂'
        · rfl
        · exact absurd (heq ▸ (List.mem_map_of_mem (·.toolId) h₂')) hnd.1
      · rcases List.mem_cons.mp h₂ with rfl | h₂'
        · exact absurd (heq ▸ (List.mem_map_of_mem (·.toolId) h₁')) hnd.1
        · exact ih hnd.2 h₁' h₂'

theorem sumCost_append (es l : List WSEntry) :
    sumCost (es ++ l) = sumCost es + sumCost l := by
  simp [sumCost]

theorem sumCost_cons (e : WSEntry) (es : List WSEntry) :
    sumCost (e :: es) = e.tokenCost + sumCost es := by
  simp [sumCost]

theorem sumCost_delE {es : List WSEntry} {c : WSEntry}
    (hnd : (keysE es).Nodup) (hc : c ∈ es) :
    sumCost (delE es c.toolId) = sumCost es - c.tokenCost := by
  induction es with
  | nil => simp at hc
  | cons e rest ih =>
      simp only [keysE, List.map_cons, List.nodup_cons] at hnd
      rcases List.mem_cons.mp hc with rfl | hc'
      · have hdel : delE (c :: rest) c.toolId = rest := by
          simp only [delE, List.filter_cons]
          rw [if_neg (by simp)]
          apply List.filter_eq_self.mpr
          intro x hx
          have hxe : x.toolId ≠ c.toolId := by
            intro h
            exact hnd.1 (h ▸ List.mem_map_of_mem (·.toolId) hx)
          simpa using hxe
        rw [hdel, sumCost_cons]
        ring
      · have hne : e.toolId ≠ c.toolId := by
          intro h
          exact hnd.1 (h ▸ List.mem_map_of_mem (·.toolId) hc')
        have hdel : delE (e :: rest) c.toolId = e :: delE rest c.toolId := by
          simp only [delE, List.filter_cons]
          rw [if_pos (by simpa using hne)]
        rw [hdel, sumCost_cons, sumCost_cons, ih hnd.2 hc']
        ring

theorem mem_addSet {l : List String} {t x : String} :
    x ∈ addSet l t ↔ x ∈ l ∨ x = t := by
  by_cases h : t ∈ l
  · simp only [addSet, h, if_true]
    constructor
    · exact Or.inl
    · rintro (hx | rfl) <;> assumption
  · simp [addSet, h]

theorem mem_foldl_addSet {ids : List String} :
    ∀ {rm : List String} {t : String},
      t ∈ ids.foldl addSet rm ↔ t ∈ rm ∨ t ∈ ids := by
  induction ids with
  | nil => simp
  | cons i rest ih =>
      intro rm t
      simp only [List.foldl_cons, ih, mem_addSet, List.mem_cons]
      tauto

/-- No toolId recorded as removed belongs to a pinned entry of `es`. -/
def NoPinnedRemoved (rm : List String) (es : List WSEntry) : Prop :=
  ∀ t ∈ rm, ∀ e ∈ es, e.toolId = t → e.pinned = false

/-- Every entry of `es'` is either non-pinned or inherits key and pinned
flag from some entry of `es` (how a hit/unpin-free stage rewrites
entries). -/
def PinExt (es es' : List WSEntry) : Prop :=
  ∀ e' ∈ es', e'.pinned = false ∨
    ∃ e ∈ es, e.toolId = e'.toolId ∧ e.pinned = e'.pinned

theorem noPinnedRemoved_nil (es : List WSEntry) : NoPinnedRemoved [] es := by
  intro t ht
  simp at ht

theorem noPinnedRemoved_of_pinExt {rm : List String} {es es' : List WSEntry}
    (hrm : NoPinnedRemoved rm es) (hpe : PinExt es es') :
    NoPinnedRemoved rm es' := by
  intro t ht e' he' hkey
  rcases hpe e' he' with h | ⟨e, he, hk, hp⟩
  · exact h
  · exact hp ▸ hrm t ht e he (hk.trans hkey)

theorem noPinnedRemoved_delE {rm : List String} {es : List WSEntry}
    {c : WSEntry} (hrm : NoPinnedRemoved rm es) :
    NoPinnedRemoved (addSet rm c.toolId) (delE es c.toolId) := by
  intro t ht e he hkey
  rcases mem_addSet.mp ht with ht' | rfl
  · exact hrm t ht' e (mem_delE.mp he).1 hkey
  · exact absurd hkey (mem_delE.mp he).2

theorem applyPins_nodup (opts : WSOptions) (cost : String → Int) (now : Int)
    (pins : List String) :
    ∀ (st : List WSEntry × List String), (keysE st.1).Nodup →
      (keysE (applyPins opts cost now st pins).1).Nodup := by
  induction pins with
  | nil => intro st h; exact h
  | cons t rest ih =>
      intro st h
      simp only [applyPins, List.foldl_cons]
      cases hf : findE st.1 t with
      | some e =>
          apply ih
          have hkey : WSEntry.toolId { e with pinned := true, lastSelectedAt := now } = t :=
            (findE_some hf).2
          simpa [keysE_replaceE hkey] using h
      | none =>
          apply ih
          have hni : t ∉ keysE st.1 := findE_eq_none_iff.mp hf
          simp only [keysE_append]
          exact List.Nodup.append h (by simp)
            (by simpa [List.disjoint_singleton] using hni)

theorem applyUnpins_nodup (unpins : List String) :
    ∀ (es : List WSEntry), (keysE es).Nodup →
      (keysE (applyUnpins es unpins)).Nodup := by
  induction unpins with
  | nil => intro es h; exact h
  | cons t rest ih =>
      intro es h
      simp only [applyUnpins, List.foldl_cons]
      cases hf : findE es t with
      | some e =>
          apply ih
          have hkey : WSEntry.toolId { e with pinned := false } = t :=
            (findE_some hf).2
          simpa [keysE_replaceE hkey] using h
      | none => exact ih es h

theorem applyTtl_nodup (now : Int) (es : List WSEntry) (rm : List String)
    (h : (keysE es).Nodup) : (keysE (applyTtl now es rm).1).Nodup :=
  nodup_keysE_of_sublist (List.filter_sublist es) h

theorem applyHits_nodup (opts : WSOptions) (cost : String → Int) (now : Int)
    (hits : List (String × ℚ)) :
    ∀ (st : List WSEntry × List String), (keysE st.1).Nodup →
      (keysE (applyHits opts cost now st hits).1).Nodup := by
  induction hits with
  | nil => intro st h; exact h
  | cons hit rest ih =>
      intro st h
      simp only [applyHits, List.foldl_cons]
      cases hf : findE st.1 hit.1 with
      | some e =>
          apply ih
          have hkey : WSEntry.toolId { e with lastSelectedAt := now, scoreHint := some hit.2 } = hit.1 :=
            (findE_some hf).2
          simpa [keysE_replaceE hkey] using h
      | none =>
          apply ih
          have hni : hit.1 ∉ keysE st.1 := findE_eq_none_iff.mp hf
          simp only [keysE_append]
          exact List.Nodup.append h (by simp)
            (by simpa [List.disjoint_singleton] using hni)

theorem maxLoop_nodup (maxE : Int) :
    ∀ (cands es : List WSEntry) (rm : List String), (keysE es).Nodup →
      (keysE (maxLoop maxE cands es rm).1).Nodup := by
  intro cands
  induction cands with
  | nil => intro es rm h; exact h
  | cons c rest ih =>
      intro es rm h
      simp only [maxLoop]
      by_cases hlen : maxE < (es.length : Int)
      · rw [if_pos hlen]
        exact ih _ _ (nodup_keysE_of_sublist (delE_sublist es c.toolId) h)
      · rw [if_neg hlen]
        exact h

theorem budgetLoop_nodup (budget : Int) :
    ∀ (cands es : List WSEntry) (rm : List String) (used : Int),
      (keysE es).Nodup →
      (keysE (budgetLoop budget cands es rm used).1).Nodup := by
  intro cands
  induction cands with
  | nil => intro es rm used h; exact h
  | cons c rest ih =>
      intro es rm used h
      simp only [budgetLoop]
      by_cases hle : used ≤ budget
      · rw [if_pos hle]; exact h
      · rw [if_neg hle]
        exact ih _ _ _ (nodup_keysE_of_sublist (delE_sublist es c.toolId) h)

theorem maxLoop_inv (maxE : Int) :
    ∀ (cands es : List WSEntry) (rm : List String),
      NoPinnedRemoved rm es →
      NoPinnedRemoved (maxLoop maxE cands es rm).2 (maxLoop maxE cands es rm).1 := by
  intro cands
  induction cands with
  | nil => intro es rm h; exact h
  | cons c rest ih =>
      intro es rm h
      simp only [maxLoop]
      by_cases hlen : maxE < (es.length : Int)
      · rw [if_pos hlen]
        exact ih _ _ (noPinnedRemoved_delE h)
      · rw [if_neg hlen]
        exact h

theorem budgetLoop_inv (budget : Int) :
    ∀ (cands es : List WSEntry) (rm : List String) (used : Int),
      NoPinnedRemoved rm es →
      NoPinnedRemoved (budgetLoop budget cands es rm used).2.1
        (budgetLoop budget cands es rm used).1 := by
  intro cands
  induction cands with
  | nil => intro es rm used h; exact h
  | cons c rest ih =>
      intro es rm used h
      simp only [budgetLoop]
      by_cases hle : used ≤ budget
      · rw [if_pos hle]; exact h
      · rw [if_neg hle]
        exact ih _ _ _ (noPinnedRemoved_delE h)

/-- Running-total/exhaustion specification of the `enforceBudget` loop:
the final `used` equals the cost sum of the remaining entries, and the
loop either ends within budget or has deleted every non-pinned entry. -/
theorem budgetLoop_spec (budget : Int) :
    ∀ (cands es : List WSEntry) (rm : List String) (used : Int),
      used = sumCost es →
      (keysE es).Nodup →
      (∀ c ∈ cands, c ∈ es ∧ c.pinned = false) →
      (keysE cands).Nodup →
      (∀ e ∈ es, e.pinned = false → e ∈ cands) →
      (budgetLoop budget cands es rm used).2.2 =
          sumCost (budgetLoop budget cands es rm used).1
      ∧ ((budgetLoop budget cands es rm used).2.2 ≤ budget
          ∨ ∀ e ∈ (budgetLoop budget cands es rm used).1, e.pinned = true) := by
  intro cands
  induction cands with
  | nil =>
      intro es rm used hused hnd hmem hcnd hcov
      refine ⟨hused, Or.inr ?_⟩
      intro e he
      by_contra hp
      have : e ∈ ([] : List WSEntry) :=
        hcov e he (by simpa using Bool.not_eq_true e.pinned ▸ hp)
      simp at this
  | cons c rest ih =>
      intro es rm used hused hnd hmem hcnd hcov
      simp only [budgetLoop]
      by_cases hle : used ≤ budget
      · rw [if_pos hle]
        exact ⟨hused, Or.inl hle⟩
      · rw [if_neg hle]
        have hcmem : c ∈ es := (hmem c (by simp)).1
        have hcnd' : (keysE rest).Nodup := by
          simpa [keysE] using (List.nodup_cons.mp (by simpa [keysE] using hcnd)).2
        have hchd : c.toolId ∉ keysE rest :=
          (List.nodup_cons.mp (by simpa [keysE] using hcnd)).1
        refine ih (delE es c.toolId) (addSet rm c.toolId)
          (used - c.tokenCost) ?_ ?_ ?_ hcnd' ?_
        · rw [hused, sumCost_delE hnd hcmem]
        · exact nodup_keysE_of_sublist (delE_sublist es c.toolId) hnd
        · intro c' hc'
          have hc'es := (hmem c' (by simp [hc'])).1
          have hc'pin := (hmem c' (by simp [hc'])).2
          have hc'ne : c'.toolId ≠ c.toolId := by
            intro h
            exact hchd (h ▸ List.mem_map_of_mem (·.toolId) hc')
          exact ⟨mem_delE.mpr ⟨hc'es, hc'ne⟩, hc'pin⟩
        · intro e he hp
          have hees := (mem_delE.mp he).1
          have hene := (mem_delE.mp he).2
          have : e ∈ c :: rest := hcov e hees hp
          rcases List.mem_cons.mp this with rfl | h
          · exact absurd rfl hene
          · exact h

/-- `enforceBudget` specification, from the key-uniqueness of the entry
list alone: the final running total is the cost sum of the surviving
entries, and either it fits the budget or every surviving entry is
pinned. -/
theorem enforceBudget_spec (budget : Int) (es : List WSEntry)
    (rm : List String) (hnd : (keysE es).Nodup) :
    (enforceBudget budget es rm).2.2 = sumCost (enforceBudget budget es rm).1
    ∧ ((enforceBudget budget es rm).2.2 ≤ budget
        ∨ ∀ e ∈ (enforceBudget budget es rm).1, e.pinned = true) := by
  simp only [enforceBudget]
  by_cases hle : sumCost es ≤ budget
  · rw [if_pos hle]
    exact ⟨rfl, Or.inl hle⟩
  · rw [if_neg hle]
    have hperm : List.Perm
        (List.insertionSort evictRel (es.filter (fun e => !e.pinned)))
        (es.filter (fun e => !e.pinned)) :=
      List.perm_insertionSort evictRel _
    refine budgetLoop_spec budget _ es rm (sumCost es) rfl hnd ?_ ?_ ?_
    · intro c hc
      have := hperm.mem_iff.mp hc
      have hmem := List.mem_of_mem_filter this
      have hpin := List.of_mem_filter this
      simp only [Bool.not_eq_true'] at hpin
      exact ⟨hmem, hpin⟩
    · have hnd' : (keysE (es.filter (fun e => !e.pinned))).Nodup :=
        nodup_keysE_of_sublist (List.filter_sublist es) hnd
      simp only [keysE] at hnd' ⊢
      exact ((hperm.map (fun x : WSEntry => x.toolId)).nodup_iff).mpr hnd'
    · intro e he hp
      refine hperm.mem_iff.mpr ?_
      exact List.mem_filter.mpr ⟨he, by simp [hp]⟩

theorem pinExt_refl (es : List WSEntry) : PinExt es es :=
  fun e' he' => Or.inr ⟨e', he', rfl, rfl⟩

theorem pinExt_trans {a b c : List WSEntry} (hab : PinExt a b)
    (hbc : PinExt b c) : PinExt a c := by
  intro e' he'
  rcases hbc e' he' with h | ⟨e, heb, hk, hp⟩
  · exact Or.inl h
  · rcases hab e heb with h | ⟨e0, he0, hk0, hp0⟩
    · exact Or.inl (hp ▸ h)
    · exact Or.inr ⟨e0, he0, hk0.trans hk, hp0.trans hp⟩

/-- Step 5 only refreshes `lastSelectedAt`/`scoreHint` of existing entries
or appends non-pinned entries, so pinned flags are inherited. -/
theorem applyHits_pinExt (opts : WSOptions) (cost : String → Int)
    (now : Int) (hits : List (String × ℚ)) :
    ∀ (st : List WSEntry × List String),
      PinExt st.1 (applyHits opts cost now st hits).1 := by
  induction hits with
  | nil => intro st; exact pinExt_refl st.1
  | cons hit rest ih =>
      intro st
      simp only [applyHits, List.foldl_cons]
      have hstep : PinExt st.1
          (match findE st.1 hit.1 with
           | some e =>
               (replaceE st.1 hit.1
                 { e with lastSelectedAt := now, scoreHint := some hit.2 },
                st.2)
           | none =>
               (st.1 ++ [newHitEntry opts cost now hit.1 hit.2],
                addSet st.2 hit.1)).1 := by
        cases hf : findE st.1 hit.1 with
        | some e =>
            intro e'' he''
            rcases mem_replaceE he'' with h | rfl
            · exact pinExt_refl st.1 e'' h
            · exact Or.inr ⟨e, (findE_some hf).1, rfl, rfl⟩
        | none =>
            intro e'' he''
            rcases List.mem_append.mp he'' with h | h
            · exact pinExt_refl st.1 e'' h
            · have : e'' = newHitEntry opts cost now hit.1 hit.2 := by
                simpa using h
              exact Or.inl (by simp [this, newHitEntry])
      cases hf : findE st.1 hit.1 with
      | some e =>
          simp only [hf] at hstep ⊢
          exact pinExt_trans hstep (ih _)
      | none =>
          simp only [hf] at hstep ⊢
          exact pinExt_trans hstep (ih _)

/-- Step 4 removes only entries that are non-pinned at expiry time; with
unique keys no pinned entry's toolId enters the removed set. -/
theorem applyTtl_inv (now : Int) {es : List WSEntry} {rm : List String}
    (hnd : (keysE es).Nodup) (hrm : NoPinnedRemoved rm es) :
    NoPinnedRemoved (applyTtl now es rm).2 (applyTtl now es rm).1 := by
  intro t ht e he hkey
  simp only [applyTtl] at ht he
  rcases mem_foldl_addSet.mp ht with ht' | ht'
  · exact hrm t ht' e (List.mem_of_mem_filter he) hkey
  · rcases List.mem_map.mp ht' with ⟨ex, hex, hexid⟩
    have hexmem : ex ∈ es := List.mem_of_mem_filter hex
    have hexexp : expiredB now ex = true := List.of_mem_filter hex
    have hemem : e ∈ es := List.mem_of_mem_filter he
    have heexp : (!expiredB now e) = true := (List.mem_filter.mp he).2
    have : e = ex := key_unique hnd hemem hexmem (by rw [hkey, hexid])
    rw [this] at heexp
    rw [hexexp] at heexp
    simp at heexp

theorem enforceMaxEntries_nodup (maxE : Int) (es : List WSEntry)
    (rm : List String) (h : (keysE es).Nodup) :
    (keysE (enforceMaxEntries maxE es rm).1).Nodup := by
  simp only [enforceMaxEntries]
  by_cases hlen : (es.length : Int) ≤ maxE
  · rw [if_pos hlen]; exact h
  · rw [if_neg hlen]; exact maxLoop_nodup maxE _ es rm h

theorem enforceMaxEntries_inv (maxE : Int) {es : List WSEntry}
    {rm : List String} (h : NoPinnedRemoved rm es) :
    NoPinnedRemoved (enforceMaxEntries maxE es rm).2
      (enforceMaxEntries maxE es rm).1 := by
  simp only [enforceMaxEntries]
  by_cases hlen : (es.length : Int) ≤ maxE
  · rw [if_pos hlen]; exact h
  · rw [if_neg hlen]; exact maxLoop_inv maxE _ es rm h

theorem enforceBudget_nodup (budget : Int) (es : List WSEntry)
    (rm : List String) (h : (keysE es).Nodup) :
    (keysE (enforceBudget budget es rm).1).Nodup := by
  simp only [enforceBudget]
  by_cases hle : sumCost es ≤ budget
  · rw [if_pos hle]; exact h
  · rw [if_neg hle]; exact budgetLoop_nodup budget _ es rm (sumCost es) h

theorem enforceBudget_inv (budget : Int) {es : List WSEntry}
    {rm : List String} (h : NoPinnedRemoved rm es) :
    NoPinnedRemoved (enforceBudget budget es rm).2.1
      (enforceBudget budget es rm).1 := by
  simp only [enforceBudget]
  by_cases hle : sumCost es ≤ budget
  · rw [if_pos hle]; exact h
  · rw [if_neg hle]; exact budgetLoop_inv budget _ es rm (sumCost es) h

theorem mem_sortStrs {l : List String} {t : String} :
    t ∈ sortStrs l ↔ t ∈ l :=
  (List.perm_insertionSort strRel l).mem_iff

/-- There is a pinned entry under key `t`. -/
def HasPinned (es : List WSEntry) (t : String) : Prop :=
  ∃ e ∈ es, e.toolId = t ∧ e.pinned = true

theorem mem_replaceE_self {es : List WSEntry} {t : String} {e' : WSEntry}
    (h : ∃ e ∈ es, e.toolId = t) : e' ∈ replaceE es t e' := by
  induction es with
  | nil => simp at h
  | cons e rest ih =>
      by_cases he : e.toolId = t
      · simp [replaceE, he]
      · rcases h with ⟨x, hx, hxt⟩
        rcases List.mem_cons.mp hx with rfl | hx'
        · exact absurd hxt he
        · simp only [replaceE, he, if_false]
          exact List.mem_cons_of_mem _ (ih ⟨x, hx', hxt⟩)

theorem mem_replaceE_of_ne {es : List WSEntry} {t : String} {e' x : WSEntry}
    (hx : x ∈ es) (hne : x.toolId ≠ t) : x ∈ replaceE es t e' := by
  induction es with
  | nil => simp at hx
  | cons e rest ih =>
      by_cases he : e.toolId = t
      · simp only [replaceE, he, if_true]
        rcases List.mem_cons.mp hx with rfl | hx'
        · exact absurd he hne
        · exact List.mem_cons_of_mem _ hx'
      · simp only [replaceE, he, if_false]
        rcases List.mem_cons.mp hx with rfl | hx'
        · exact List.mem_cons_self _ _
        · exact List.mem_cons_of_mem _ (ih hx')

theorem applyPins_keeps_pinned (opts : WSOptions) (cost : String → Int)
    (now : Int) (pins : List String) :
    ∀ (st : List WSEntry × List String) (t : String), HasPinned st.1 t →
      HasPinned (applyPins opts cost now st pins).1 t := by
  induction pins with
  | nil => intro st t h; exact h
  | cons p rest ih =>
      intro st t h
      simp only [applyPins, List.foldl_cons]
      rcases h with ⟨e, he, het, hep⟩
      cases hf : findE st.1 p with
      | some e0 =>
          apply ih
          by_cases hpt : e.toolId = p
          · refine ⟨{ e0 with pinned := true, lastSelectedAt := now },
              mem_replaceE_self ⟨e, he, hpt⟩, ?_, rfl⟩
            simpa [(findE_some hf).2] using hpt ▸ het
          · exact ⟨e, mem_replaceE_of_ne he hpt, het, hep⟩
      | none =>
          apply ih
          exact ⟨e, List.mem_append_left _ he, het, hep⟩

theorem applyPins_pins_pinned (opts : WSOptions) (cost : String → Int)
    (now : Int) (pins : List String) :
    ∀ (st : List WSEntry × List String) (t : String), t ∈ pins →
      HasPinned (applyPins opts cost now st pins).1 t := by
  induction pins with
  | nil => intro st t h; simp at h
  | cons p rest ih =>
      intro st t h
      rcases List.mem_cons.mp h with rfl | h'
      · simp only [applyPins, List.foldl_cons]
        cases hf : findE st.1 t with
        | some e0 =>
            refine applyPins_keeps_pinned opts cost now rest _ t ?_
            exact ⟨{ e0 with pinned := true, lastSelectedAt := now },
              mem_replaceE_self ⟨e0, (findE_some hf).1, (findE_some hf).2⟩,
              (findE_some hf).2, rfl⟩
        | none =>
            refine applyPins_keeps_pinned opts cost now rest _ t ?_
            exact ⟨newPinEntry opts cost now t,
              List.mem_append_right _ (by simp), rfl, rfl⟩
      · simp only [applyPins, List.foldl_cons]
        cases hf : findE st.1 p with
        | some e0 => exact ih _ t h'
        | none => exact ih _ t h'

theorem applyUnpins_keeps_pinned (unpins : List String) :
    ∀ (es : List WSEntry) (t : String), t ∉ unpins → HasPinned es t →
      HasPinned (applyUnpins es unpins) t := by
  induction unpins with
  | nil => intro es t _ h; exact h
  | cons u rest ih =>
      intro es t ht h
      have htu : t ≠ u := fun e => ht (e ▸ List.mem_cons_self u rest)
      have htr : t ∉ rest := fun e => ht (List.mem_cons_of_mem _ e)
      simp only [applyUnpins, List.foldl_cons]
      rcases h with ⟨e, he, het, hep⟩
      cases hf : findE es u with
      | some e0 =>
          exact ih _ t htr ⟨e, mem_replaceE_of_ne he (het ▸ htu), het, hep⟩
      | none => exact ih _ t htr ⟨e, he, het, hep⟩

theorem applyTtl_keeps_pinned (now : Int) (es : List WSEntry)
    (rm : List String) (t : String) (h : HasPinned es t) :
    HasPinned (applyTtl now es rm).1 t := by
  rcases h with ⟨e, he, het, hep⟩
  refine ⟨e, ?_, het, hep⟩
  simp only [applyTtl]
  exact List.mem_filter.mpr ⟨he, by simp [expiredB, hep]⟩

theorem applyHits_keeps_pinned (opts : WSOptions) (cost : String → Int)
    (now : Int) (hits : List (String × ℚ)) :
    ∀ (st : List WSEntry × List String) (t : String),
      (keysE st.1).Nodup → HasPinned st.1 t →
      HasPinned (applyHits opts cost now st hits).1 t := by
  induction hits with
  | nil => intro st t _ h; exact h
  | cons hit rest ih =>
      intro st t hnd h
      simp only [applyHits, List.foldl_cons]
      rcases h with ⟨e, he, het, hep⟩
      cases hf : findE st.1 hit.1 with
      | some e0 =>
          have hkey : WSEntry.toolId
              { e0 with lastSelectedAt := now, scoreHint := some hit.2 }
              = hit.1 := (findE_some hf).2
          have hnd' : (keysE (replaceE st.1 hit.1
              { e0 with lastSelectedAt := now, scoreHint := some hit.2 })).Nodup := by
            simpa [keysE_replaceE hkey] using hnd
          apply ih _ t hnd'
          by_cases hpt : e.toolId = hit.1
          · have he0mem := (findE_some hf).1
            have he0key := (findE_some hf).2
            have heq : e = e0 := key_unique hnd he he0mem (by rw [hpt, he0key])
            refine ⟨{ e0 with lastSelectedAt := now, scoreHint := some hit.2 },
              mem_replaceE_self ⟨e, he, hpt⟩, ?_, ?_⟩
            · show e0.toolId = t
              rw [← heq, het]
            · show e0.pinned = true
              rw [← heq, hep]
          · exact ⟨e, mem_replaceE_of_ne he hpt, het, hep⟩
      | none =>
          have hni : hit.1 ∉ keysE st.1 := findE_eq_none_iff.mp hf
          have hnd' : (keysE (st.1 ++
              [newHitEntry opts cost now hit.1 hit.2])).Nodup := by
            simp only [keysE_append]
            exact List.Nodup.append hnd (by simp)
              (by simpa [List.disjoint_singleton] using hni)
          apply ih _ t hnd'
          exact ⟨e, List.mem_append_left _ he, het, hep⟩

theorem maxLoop_keeps_pinned (maxE : Int) :
    ∀ (cands es : List WSEntry) (rm : List String) (t : String),
      (∀ c ∈ cands, c ∈ es ∧ c.pinned = false) →
      (keysE es).Nodup → (keysE cands).Nodup →
      HasPinned es t → HasPinned (maxLoop maxE cands es rm).1 t := by
  intro cands
  induction cands with
  | nil => intro es rm t _ _ _ h; exact h
  | cons c rest ih =>
      intro es rm t hmem hnd hcnd h
      simp only [maxLoop]
      by_cases hlen : maxE < (es.length : Int)
      · rw [if_pos hlen]
        have hcmem := (hmem c (by simp)).1
        have hcpin := (hmem c (by simp)).2
        have hchd : c.toolId ∉ keysE rest :=
          (List.nodup_cons.mp (by simpa [keysE] using hcnd)).1
        have hcnd' : (keysE rest).Nodup := by
          simpa [keysE] using
            (List.nodup_cons.mp (by simpa [keysE] using hcnd)).2
        refine ih _ _ t ?_ ?_ hcnd' ?_
        · intro c' hc'
          have h1 := (hmem c' (by simp [hc'])).1
          have h2 := (hmem c' (by simp [hc'])).2
          have hne : c'.toolId ≠ c.toolId := by
            intro h
            exact hchd (h ▸ List.mem_map_of_mem (·.toolId) hc')
          exact ⟨mem_delE.mpr ⟨h1, hne⟩, h2⟩
        · exact nodup_keysE_of_sublist (delE_sublist es c.toolId) hnd
        · rcases h with ⟨e, he, het, hep⟩
          have hene : e.toolId ≠ c.toolId := by
            intro hkey
            have : e = c := key_unique hnd he hcmem hkey
            rw [this] at hep
            rw [hcpin] at hep
            exact Bool.false_ne_true hep
          exact ⟨e, mem_delE.mpr ⟨he, hene⟩, het, hep⟩
      · rw [if_neg hlen]
        exact h

theorem budgetLoop_keeps_pinned (budget : Int) :
    ∀ (cands es : List WSEntry) (rm : List String) (used : Int) (t : String),
      (∀ c ∈ cands, c ∈ es ∧ c.pinned = false) →
      (keysE es).Nodup → (keysE cands).Nodup →
      HasPinned es t → HasPinned (budgetLoop budget cands es rm used).1 t := by
  intro cands
  induction cands with
  | nil => intro es rm used t _ _ _ h; exact h
  | cons c rest ih =>
      intro es rm used t hmem hnd hcnd h
      simp only [budgetLoop]
      by_cases hle : used ≤ budget
      · rw [if_pos hle]; exact h
      · rw [if_neg hle]
        have hcmem := (hmem c (by simp)).1
        have hcpin := (hmem c (by simp)).2
        have hchd : c.toolId ∉ keysE rest :=
          (List.nodup_cons.mp (by simpa [keysE] using hcnd)).1
        have hcnd' : (keysE rest).Nodup := by
          simpa [keysE] using
            (List.nodup_cons.mp (by simpa [keysE] using hcnd)).2
        refine ih _ _ _ t ?_ ?_ hcnd' ?_
        · intro c' hc'
          have h1 := (hmem c' (by simp [hc'])).1
          have h2 := (hmem c' (by simp [hc'])).2
          have hne : c'.toolId ≠ c.toolId := by
            intro h
            exact hchd (h ▸ List.mem_map_of_mem (·.toolId) hc')
          exact ⟨mem_delE.mpr ⟨h1, hne⟩, h2⟩
        · exact nodup_keysE_of_sublist (delE_sublist es c.toolId) hnd
        · rcases h with ⟨e, he, het, hep⟩
          have hene : e.toolId ≠ c.toolId := by
            intro hkey
            have : e = c := key_unique hnd he hcmem hkey
            rw [this] at hep
            rw [hcpin] at hep
            exact Bool.false_ne_true hep
          exact ⟨e, mem_delE.mpr ⟨he, hene⟩, het, hep⟩

theorem sorted_cands_props {es : List WSEntry}
    (hnd : (keysE es).Nodup) :
    (∀ c ∈ List.insertionSort evictRel (es.filter (fun e => !e.pinned)),
        c ∈ es ∧ c.pinned = false)
    ∧ (keysE (List.insertionSort evictRel
        (es.filter (fun e => !e.pinned)))).Nodup := by
  have hperm : List.Perm
      (List.insertionSort evictRel (es.filter (fun e => !e.pinned)))
      (es.filter (fun e => !e.pinned)) :=
    List.perm_insertionSort evictRel _
  constructor
  · intro c hc
    have := hperm.mem_iff.mp hc
    have hmem := List.mem_of_mem_filter this
    have hpin := List.of_mem_filter this
    simp only [Bool.not_eq_true'] at hpin
    exact ⟨hmem, hpin⟩
  · have hnd' : (keysE (es.filter (fun e => !e.pinned))).Nodup :=
      nodup_keysE_of_sublist (List.filter_sublist es) hnd
    simp only [keysE] at hnd' ⊢
    exact ((hperm.map (fun x : WSEntry => x.toolId)).nodup_iff).mpr hnd'

theorem enforceMaxEntries_keeps_pinned (maxE : Int) {es : List WSEntry}
    {rm : List String} (hnd : (keysE es).Nodup) (t : String)
    (h : HasPinned es t) :
    HasPinned (enforceMaxEntries maxE es rm).1 t := by
  simp only [enforceMaxEntries]
  by_cases hlen : (es.length : Int) ≤ maxE
  · rw [if_pos hlen]; exact h
  · rw [if_neg hlen]
    exact maxLoop_keeps_pinned maxE _ es rm t (sorted_cands_props hnd).1
      hnd (sorted_cands_props hnd).2 h

theorem enforceBudget_keeps_pinned (budget : Int) {es : List WSEntry}
    {rm : List String} (hnd : (keysE es).Nodup) (t : String)
    (h : HasPinned es t) :
    HasPinned (enforceBudget budget es rm).1 t := by
  simp only [enforceBudget]
  by_cases hle : sumCost es ≤ budget
  · rw [if_pos hle]; exact h
  · rw [if_neg hle]
    exact budgetLoop_keeps_pinned budget _ es rm (sumCost es) t
      (sorted_cands_props hnd).1 hnd (sorted_cands_props hnd).2 h

theorem preBudget_nodup (opts : WSOptions) (cost : String → Int) (now : Int)
    (hits : List (String × ℚ)) (s : WSState) (input : UpdateInput)
    (hnd : (keysE s.entries).Nodup) :
    (keysE (preBudget opts cost now hits s input).1.1).Nodup := by
  simp only [preBudget]
  set a1 := applyPins opts cost now (s.entries, []) input.pin with ha1
  set a2 := applyUnpins a1.1 input.unpin with ha2
  set a3 := applyTtl now a2 [] with ha3
  set a4 := applyHits opts cost now (a3.1, a1.2) hits with ha4
  have h1 : (keysE a1.1).Nodup :=
    applyPins_nodup opts cost now input.pin (s.entries, []) hnd
  have h2 : (keysE a2).Nodup := applyUnpins_nodup input.unpin a1.1 h1
  have h3 : (keysE a3.1).Nodup := applyTtl_nodup now a2 [] h2
  have h4 : (keysE a4.1).Nodup :=
    applyHits_nodup opts cost now hits (a3.1, a1.2) h3
  by_cases hmax : 0 < opts.maxEntries
  · rw [if_pos hmax]
    exact enforceMaxEntries_nodup opts.maxEntries a4.1 a3.2 h4
  · rw [if_neg hmax]
    exact h4

theorem preBudget_inv (opts : WSOptions) (cost : String → Int) (now : Int)
    (hits : List (String × ℚ)) (s : WSState) (input : UpdateInput)
    (hnd : (keysE s.entries).Nodup) :
    NoPinnedRemoved (preBudget opts cost now hits s input).2
      (preBudget opts cost now hits s input).1.1 := by
  simp only [preBudget]
  set a1 := applyPins opts cost now (s.entries, []) input.pin with ha1
  set a2 := applyUnpins a1.1 input.unpin with ha2
  set a3 := applyTtl now a2 [] with ha3
  set a4 := applyHits opts cost now (a3.1, a1.2) hits with ha4
  have h1 : (keysE a1.1).Nodup :=
    applyPins_nodup opts cost now input.pin (s.entries, []) hnd
  have h2 : (keysE a2).Nodup := applyUnpins_nodup input.unpin a1.1 h1
  have inv3 : NoPinnedRemoved a3.2 a3.1 :=
    applyTtl_inv now h2 (noPinnedRemoved_nil a2)
  have inv4 : NoPinnedRemoved a3.2 a4.1 :=
    noPinnedRemoved_of_pinExt inv3
      (applyHits_pinExt opts cost now hits (a3.1, a1.2))
  by_cases hmax : 0 < opts.maxEntries
  · rw [if_pos hmax]
    exact enforceMaxEntries_inv opts.maxEntries inv4
  · rw [if_neg hmax]
    exact inv4

theorem preBudget_pinned (opts : WSOptions) (cost : String → Int)
    (now : Int) (hits : List (String × ℚ)) (s : WSState)
    (input : UpdateInput) (hnd : (keysE s.entries).Nodup) (t : String)
    (hun : t ∉ input.unpin) (h : HasPinned s.entries t ∨ t ∈ input.pin) :
    HasPinned (preBudget opts cost now hits s input).1.1 t := by
  simp only [preBudget]
  set a1 := applyPins opts cost now (s.entries, []) input.pin with ha1
  set a2 := applyUnpins a1.1 input.unpin with ha2
  set a3 := applyTtl now a2 [] with ha3
  set a4 := applyHits opts cost now (a3.1, a1.2) hits with ha4
  have hnd1 : (keysE a1.1).Nodup :=
    applyPins_nodup opts cost now input.pin (s.entries, []) hnd
  have hnd2 : (keysE a2).Nodup := applyUnpins_nodup input.unpin a1.1 hnd1
  have hnd3 : (keysE a3.1).Nodup := applyTtl_nodup now a2 [] hnd2
  have hnd4 : (keysE a4.1).Nodup :=
    applyHits_nodup opts cost now hits (a3.1, a1.2) hnd3
  have h1 : HasPinned a1.1 t := by
    rcases h with h | h
    · exact applyPins_keeps_pinned opts cost now input.pin (s.entries, []) t h
    · exact applyPins_pins_pinned opts cost now input.pin (s.entries, []) t h
  have h2 : HasPinned a2 t :=
    applyUnpins_keeps_pinned input.unpin a1.1 t hun h1
  have h3 : HasPinned a3.1 t := applyTtl_keeps_pinned now a2 [] t h2
  have h4 : HasPinned a4.1 t :=
    applyHits_keeps_pinned opts cost now hits (a3.1, a1.2) t hnd3 h3
  by_cases hmax : 0 < opts.maxEntries
  · rw [if_pos hmax]
    exact enforceMaxEntries_keeps_pinned opts.maxEntries hnd4 t h4
  · rw [if_neg hmax]
    exact h4

/-- C1: after any `update`, the stored `usedTokens` (and the returned
`budgetUsed`) equal the token-cost sum of the remaining entries; pinned
entries are never evicted — every entry that is pinned going into the
eviction stages (already stored as pinned and not unpinned by this call,
or pinned by this call's `pin` list) is still present and pinned
afterwards, and no toolId in `removedToolIds` belongs to a pinned entry
of the resulting state; and `usedTokens` fits the budget unless the
pinned entries alone already cost more than `budgetTokens` (the
documented overflow). -/
theorem update_invariants (opts : WSOptions) (cost : String → Int)
    (now : Int) (hits : List (String × ℚ)) (s : WSState)
    (input : UpdateInput) (hnd : (keysE s.entries).Nodup) :
    (update opts cost now hits s input).2.budgetUsed =
        (update opts cost now hits s input).1.usedTokens
    ∧ (update opts cost now hits s input).1.usedTokens =
        sumCost (update opts cost now hits s input).1.entries
    ∧ (∀ t ∈ (update opts cost now hits s input).2.removedToolIds,
        ∀ e ∈ (update opts cost now hits s input).1.entries,
          e.toolId = t → e.pinned = false)
    ∧ (∀ t : String, t ∉ input.unpin →
        (HasPinned s.entries t ∨ t ∈ input.pin) →
        HasPinned (update opts cost now hits s input).1.entries t)
    ∧ ((update opts cost now hits s input).1.usedTokens ≤
          (update opts cost now hits s input).1.budgetTokens
        ∨ (update opts cost now hits s input).1.budgetTokens <
            sumCost ((update opts cost now hits s input).1.entries.filter
              (fun e => e.pinned))) := by
  refine ⟨rfl, rfl, ?_, ?_, ?_⟩
  · intro t ht e he hkey
    have hinv := enforceBudget_inv input.budgetTokens
      (preBudget_inv opts cost now hits s input hnd)
    exact hinv t (mem_sortStrs.mp ht) e he hkey
  · intro t hun h
    exact enforceBudget_keeps_pinned input.budgetTokens
      (preBudget_nodup opts cost now hits s input hnd) t
      (preBudget_pinned opts cost now hits s input hnd t hun h)
  · have hspec := enforceBudget_spec input.budgetTokens
      (preBudget opts cost now hits s input).1.1
      (preBudget opts cost now hits s input).2
      (preBudget_nodup opts cost now hits s input hnd)
    by_cases hle : sumCost (enforceBudget input.budgetTokens
        (preBudget opts cost now hits s input).1.1
        (preBudget opts cost now hits s input).2).1 ≤ input.budgetTokens
    · exact Or.inl hle
    · refine Or.inr ?_
      rcases hspec.2 with h | hall
      · exact absurd (hspec.1 ▸ h) hle
      · have hfil : (enforceBudget input.budgetTokens
            (preBudget opts cost now hits s input).1.1
            (preBudget opts cost now hits s input).2).1.filter
              (fun e => e.pinned) =
            (enforceBudget input.budgetTokens
              (preBudget opts cost now hits s input).1.1
              (preBudget opts cost now hits s input).2).1 :=
          List.filter_eq_self.mpr (fun e he => by simp [hall e he])

        show input.budgetTokens < sumCost ((enforceBudget input.budgetTokens
          (preBudget opts cost now hits s input).1.1
          (preBudget opts cost now hits s input).2).1.filter
            (fun e => e.pinned))
        rw [hfil]
        omega

/-- Witness for C1 at a concrete input: the two-hit eviction scenario used
by C4 has duplicate-free keys in its (empty) starting state. -/
theorem update_invariants_witness :
    (keysE (freshState "S" 0).entries).Nodup
    ∧ ((update defaultOptions (fun _ => 200) 5 [("a", 1), ("b", 1)]
          (freshState "S" 0)
          { budgetTokens := 300, pin := [], unpin := [] }).2.budgetUsed =
        (update defaultOptions (fun _ => 200) 5 [("a", 1), ("b", 1)]
          (freshState "S" 0)
          { budgetTokens := 300, pin := [], unpin := [] }).1.usedTokens) :=
  ⟨by decide,
   (update_invariants defaultOptions (fun _ => 200) 5 [("a", 1), ("b", 1)]
     (freshState "S" 0) { budgetTokens := 300, pin := [], unpin := [] }
     (by decide)).1⟩

/-- The C4 scenario: fresh session, budget 300, default options, a query
returning the two new hits `"a"` and `"b"`, both of token cost 200 and
equal score (hence equal `lastSelectedAt = now`, `lastUsedAt = 0` and
equal `scoreHint`). -/
def c4Run : WSState × UpdateResult :=
  update defaultOptions (fun _ => 200) 5 [("a", 1), ("b", 1)]
    (freshState "S" 0) { budgetTokens := 300, pin := [], unpin := [] }

/-- C4 counterexample: in the two-hit tie scenario the eviction ranking
ends with `toolId` ascending and evicts from the front, so the
lexicographically *smaller* toolId `"a"` is evicted and `"b"` survives —
`selectedToolIds` is not `["a"]` and `"b"` is not removed, contradicting
the claim that the lexicographically smaller toolId is the one
selected. -/
theorem c4_smaller_toolId_is_evicted :
    c4Run.2.selectedToolIds ≠ ["a"]
    ∧ ("b" ∈ c4Run.2.removedToolIds) = False := by
  refine ⟨by decide, by decide⟩

/-- C4 (amended): in the scenario, `selectedToolIds` is the single
lexicographically *larger* toolId `"b"`, `removedToolIds` contains the
smaller one `"a"`, and `budgetUsed = 200 ≤ 300`. -/
theorem c4_larger_toolId_survives :
    c4Run.2.selectedToolIds = ["b"]
    ∧ c4Run.2.removedToolIds = ["a"]
    ∧ c4Run.2.budgetUsed ≤ 300 := by
  refine ⟨by decide, by decide, by decide⟩

/-- C10: `markUsed` never touches the stored `usedTokens`; when it creates
a missing entry with positive token cost in a state whose `usedTokens` is
at most the entry cost sum (the invariant `update` re-establishes), then
afterwards `usedTokens` is strictly below the cost sum of the entries. -/
theorem markUsed_keeps_usedTokens_stale (opts : WSOptions)
    (cost : String → Int) (now : Int) (s : WSState) (t : String)
    (habs : findE s.entries t = none) (hpos : 0 < cost t)
    (hle : s.usedTokens ≤ sumCost s.entries) :
    (markUsed opts cost now s t).usedTokens = s.usedTokens
    ∧ (markUsed opts cost now s t).usedTokens <
        sumCost (markUsed opts cost now s t).entries := by
  refine ⟨by simp [markUsed, habs], ?_⟩
  simp only [markUsed, habs]
  have hsum : sumCost (s.entries ++ [newUsedEntry opts cost now t]) =
      sumCost s.entries + cost t := by
    simp [sumCost, newUsedEntry]
  simp only [hsum]
  omega

/-- Witness for C10 at a concrete input: fresh session, default cost 120,
`markUsed` on the absent toolId `"x"`. -/
theorem markUsed_keeps_usedTokens_stale_witness :
    (findE (freshState "S" 0).entries "x" = none
      ∧ 0 < (fun _ => (120 : Int)) "x"
      ∧ (freshState "S" 0).usedTokens ≤ sumCost (freshState "S" 0).entries)
    ∧ ((markUsed defaultOptions (fun _ => (120 : Int)) 7 (freshState "S" 0)
          "x").usedTokens = (freshState "S" 0).usedTokens
      ∧ (markUsed defaultOptions (fun _ => (120 : Int)) 7 (freshState "S" 0)
          "x").usedTokens <
          sumCost (markUsed defaultOptions (fun _ => (120 : Int)) 7
            (freshState "S" 0) "x").entries) :=
  ⟨⟨by decide, by decide, by decide⟩,
   markUsed_keeps_usedTokens_stale defaultOptions (fun _ => (120 : Int)) 7
     (freshState "S" 0) "x" (by decide) (by decide) (by decide)⟩

end WorkingSet

namespace AliasWS

/-!
Reference-level model of `InMemoryWorkingSetManager.get`/`cloneState`
(workingset.ts lines 44-51 and 65-78), for the defensive-copy claim.  JS
objects live on a heap: a stored `WorkingSetState` keeps its entries as a
record from toolId to the *address* of a `WorkingSetEntry` object.
`cloneState` copies the scalar fields and spreads the entries record
(`{ ...state.entries }`): the record container is fresh, but the entry
addresses — hence the entry objects — are shared with the stored state.
Caller-side record surgery on the returned value (adding or deleting
keys) builds fresh containers and cannot reach the manager, while a field
write through a returned entry address is a heap write that the stored
state observes. -/

/-- A stored session state whose entries point into the entry heap. -/
structure StoredState where
  sessionId : String
  budgetTokens : Int
  usedTokens : Int
  entries : List (String × Nat)
deriving DecidableEq

/-- The manager: its session map, the heap of entry objects (addressed by
index), and the configured default budget. -/
structure Manager where
  sessions : List (String × StoredState)
  heap : List WorkingSet.WSEntry
  defaultBudget : Int
deriving DecidableEq

/-- Association-list lookup (JS `Map.prototype.get` / record indexing). -/
def lookup {β : Type} (m : List (String × β)) (k : String) : Option β :=
  (m.find? (fun p => p.1 = k)).map (·.2)

/-- `cloneState`: fresh scalar fields, fresh entries container, same entry
addresses. -/
def cloneState (st : StoredState) : StoredState :=
  { sessionId := st.sessionId, budgetTokens := st.budgetTokens,
    usedTokens := st.usedTokens, entries := st.entries }

/-- The fresh empty state `get` creates on first access. -/
def freshStored (sid : String) (b : Int) : StoredState :=
  { sessionId := sid, budgetTokens := b, usedTokens := 0, entries := [] }

/-- `InMemoryWorkingSetManager.get`: clone an existing session state, or
create, store and clone a fresh empty one with the default budget. -/
def get (m : Manager) (sid : String) : Manager × StoredState :=
  match lookup m.sessions sid with
  | none =>
      let fresh := freshStored sid m.defaultBudget
      ({ m with sessions := Catalog.mapSet m.sessions sid fresh },
       cloneState fresh)
  | some st => (m, cloneState st)

/-- Overwrite the heap cell at address `a` (a JS field assignment on the
entry object living there). -/
def setIdx : List WorkingSet.WSEntry → Nat →
    (WorkingSet.WSEntry → WorkingSet.WSEntry) → List WorkingSet.WSEntry
  | [], _, _ => []
  | e :: rest, 0, f => f e :: rest
  | e :: rest, n + 1, f => e :: setIdx rest n f

/-- Mutate the entry object at address `a`. -/
def heapWrite (m : Manager) (a : Nat)
    (f : WorkingSet.WSEntry → WorkingSet.WSEntry) : Manager :=
  { m with heap := setIdx m.heap a f }

/-- The entry the *stored* session state shows for `(sid, k)`. -/
def viewEntry (m : Manager) (sid k : String) : Option WorkingSet.WSEntry :=
  match lookup m.sessions sid with
  | none => none
  | some st =>
      match lookup st.entries k with
      | none => none
      | some a => m.heap[a]?

theorem lookup_mapSet_self {β : Type} (m : List (String × β)) (k : String)
    (v : β) : lookup (Catalog.mapSet m k v) k = some v := by
  induction m with
  | nil => simp [lookup, Catalog.mapSet]
  | cons p rest ih =>
      by_cases h : p.1 = k
      · simp [lookup, Catalog.mapSet, h]
      · simp only [Catalog.mapSet]
        rw [if_neg h]
        simpa [lookup, List.find?, h] using ih

/-- The stored state of the example session `"s"`: one entry `"t"` whose
object lives at heap address 0. -/
def st0 : StoredState :=
  { sessionId := "s", budgetTokens := 100, usedTokens := 12,
    entries := [("t", 0)] }

/-- The example entry object at heap address 0 (`pinned = false`). -/
def e0 : WorkingSet.WSEntry :=
  { toolId := "t", pinned := false, lastUsedAt := 0, lastSelectedAt := 0,
    ttlMs := none, tokenCost := 12, scoreHint := none }

/-- A one-session manager whose single entry object lives at heap
address 0. -/
def m0 : Manager :=
  { sessions := [("s", st0)], heap := [e0], defaultBudget := 0 }

/-- The state `get` returns for session `"s"` of `m0`, and the manager
after the caller sets `pinned := true` on the entry object reached
through that returned state. -/
def m2 : Manager :=
  heapWrite (get m0 "s").1 0 (fun e => { e with pinned := true })

/-- C6 counterexample: the caller obtains `get(m0, "s")`, follows the
returned state's entry record to the shared entry object (address 0) and
sets `pinned := true`; the *stored* session state now shows
`pinned = true`, so mutating a field of a returned `WorkingSetEntry` does
reach the stored state — `cloneState` copies the entries container but
shares the entry objects. -/
theorem get_clone_shares_entry_objects :
    lookup ((get m0 "s").2).entries "t" = some 0
    ∧ (viewEntry m0 "s" "t").map (·.pinned) = some false
    ∧ (viewEntry m2 "s" "t").map (·.pinned) = some true
    ∧ viewEntry m2 "s" "t" ≠ viewEntry m0 "s" "t" := by
  refine ⟨by decide, by decide, by decide, by decide⟩

/-- C6 (amended): `get` returns a state whose scalar fields and entries
record equal the stored ones — the entries record is a fresh container
holding the *same entry addresses*, so caller-side additions or deletions
on the returned record cannot reach the manager, while field writes on
the shared entry objects can (see the counterexample); on first access it
creates, stores and returns an empty state with the configured default
budget; and `get` itself never copies or alters the entry heap. -/
theorem get_clone_semantics (m : Manager) (sid : String) :
    lookup ((get m sid).1).sessions sid = some ((get m sid).2)
    ∧ ((get m sid).2 =
        (match lookup m.sessions sid with
         | none => freshStored sid m.defaultBudget
         | some st => st))
    ∧ ((get m sid).1).heap = m.heap := by
  cases h : lookup m.sessions sid with
  | none =>
      refine ⟨?_, ?_, ?_⟩
      · simp only [get, h]
        exact lookup_mapSet_self m.sessions sid _
      · simp [get, h, cloneState]
      · simp [get, h]
  | some st =>
      refine ⟨?_, ?_, ?_⟩
      · simp [get, h, cloneState]
      · simp [get, h, cloneState]
      · simp [get, h]

end AliasWS

theorem charListLE_total (a : List Char) :
    ∀ b, charListLE a b = true ∨ charListLE b a = true := by
  induction a with
  | nil => intro b; left; cases b <;> rfl
  | cons c cs ih =>
      intro b
      cases b with
      | nil => right; rfl
      | cons d ds =>
          by_cases h : c.toNat = d.toNat
          · rcases ih ds with h1 | h1
            · left; simp [charListLE, h, h1]
            · right; simp [charListLE, h.symm, h1]
          · rcases Nat.lt_or_ge c.toNat d.toNat with hlt | hge
            · left; simp [charListLE, h, hlt]
            · have hne : ¬ d.toNat = c.toNat := fun e => h e.symm
              have hlt : d.toNat < c.toNat := Nat.lt_of_le_of_ne hge hne
              right; simp [charListLE, hne, hlt]

theorem charListLE_trans (a : List Char) :
    ∀ b c, charListLE a b = true → charListLE b c = true →
      charListLE a c = true := by
  induction a with
  | nil => intro b c _ _; cases c <;> rfl
  | cons x xs ih =>
      intro b c hab hbc
      cases b with
      | nil => simp [charListLE] at hab
      | cons y ys =>
          cases c with
          | nil => simp [charListLE] at hbc
          | cons z zs =>
              by_cases hxy : x.toNat = y.toNat <;>
                by_cases hyz : y.toNat = z.toNat
              · have hxz : x.toNat = z.toNat := hxy.trans hyz
                simp only [charListLE, hxy, hyz, hxz, if_true, if_pos] at hab hbc ⊢
                exact ih ys zs hab hbc
              · have hxz : ¬ x.toNat = z.toNat := by rw [hxy]; exact hyz
                simp only [charListLE, hxy, hyz, hxz, if_true, if_false] at hab hbc ⊢
                simp only [decide_eq_true_eq] at hbc ⊢
                omega
              · have hxz : ¬ x.toNat = z.toNat := by rw [← hyz]; exact hxy
                simp only [charListLE, hxy, hyz, hxz, if_false] at hab hbc ⊢
                simp only [decide_eq_true_eq] at hab ⊢
                omega
              · simp only [charListLE, hxy, hyz, if_false] at hab hbc
                simp only [decide_eq_true_eq] at hab hbc
                by_cases hxz : x.toNat = z.toNat
                · omega
                · simp only [charListLE, hxz, if_false, decide_eq_true_eq]
                  omega

theorem strLEb_total (a b : String) :
    strLEb a b = true ∨ strLEb b a = true :=
  charListLE_total a.data b.data

theorem strLEb_trans {a b c : String} (hab : strLEb a b = true)
    (hbc : strLEb b c = true) : strLEb a c = true :=
  charListLE_trans a.data b.data c.data hab hbc

namespace Serial

/-!
Model of `sortValue`/`stableStringify` from src/core/utils.ts.  A JS value
possibly containing shared references is a shallow value (`HVal`) over a
heap of objects (`HObj`): object identity is heap address.  `sortValue`
carries the `WeakSet` `seen` as an explicit list of addresses threaded
through the traversal in evaluation order; the source adds every visited
object to the set and never removes it, so additions made while
serializing one sibling remain visible in later siblings.  The `fuel`
argument bounds recursion depth; any value above twice the heap size is
enough, since every `ref` either stops at `seen` or adds a fresh address.
-/

/-- Output of `sortValue`: a plain JSON-like tree. -/
inductive JVal where
  | null
  | bool (b : Bool)
  | num (n : ℚ)
  | str (s : String)
  | arr (items : List JVal)
  | obj (fields : List (String × JVal))

/-- A shallow JS value: primitive or reference to a heap object. -/
inductive HVal where
  | null
  | bool (b : Bool)
  | num (n : ℚ)
  | str (s : String)
  | ref (a : Nat)

/-- A heap object: array or plain object. -/
inductive HObj where
  | arr (items : List HVal)
  | obj (fields : List (String × HVal))

/-- The heap: objects addressed by position. -/
abbrev Heap := List HObj

/-- `Object.keys(...).sort()` order on fields: compare keys. -/
def keyLE (p q : String × HVal) : Prop := strLEb p.1 q.1 = true

instance : DecidableRel keyLE := fun p q =>
  instDecidableEqBool (strLEb p.1 q.1) true

instance : IsTotal (String × HVal) keyLE :=
  ⟨fun p q => strLEb_total p.1 q.1⟩

instance : IsTrans (String × HVal) keyLE :=
  ⟨fun _ _ _ => strLEb_trans⟩

/-- `sortValue` from utils.ts: primitives pass through; a reference
already in `seen` becomes the string `"[Circular]"`; otherwise the object
is added to `seen` and serialized — arrays in element order, objects with
keys sorted — threading `seen` through the children left to right. -/
def sortValue (heap : Heap) : Nat → HVal → List Nat → JVal × List Nat
  | 0, _, seen => (JVal.str "[FuelExhausted]", seen)
  | _ + 1, .null, seen => (.null, seen)
  | _ + 1, .bool b, seen => (.bool b, seen)
  | _ + 1, .num n, seen => (.num n, seen)
  | _ + 1, .str s, seen => (.str s, seen)
  | fuel + 1, .ref a, seen =>
      if a ∈ seen then (.str "[Circular]", seen)
      else
        let seen' := a :: seen
        match heap[a]? with
        | none => (.null, seen')
        | some (.arr items) =>
            let r := items.foldl
              (fun (acc : List JVal × List Nat) it =>
                let p := sortValue heap fuel it acc.2
                (acc.1 ++ [p.1], p.2))
              ([], seen')
            (.arr r.1, r.2)
        | some (.obj fields) =>
            let sorted := List.insertionSort keyLE fields
            let r := sorted.foldl
              (fun (acc : List (String × JVal) × List Nat) f =>
                let p := sortValue heap fuel f.2 acc.2
                (acc.1 ++ [(f.1, p.1)], p.2))
              ([], seen')
            (.obj r.1, r.2)

/-- Every object in the tree has its keys in non-descending lexicographic
order (and so recursively). -/
inductive KeysSorted : JVal → Prop where
  | null : KeysSorted .null
  | bool (b : Bool) : KeysSorted (.bool b)
  | num (n : ℚ) : KeysSorted (.num n)
  | str (s : String) : KeysSorted (.str s)
  | arr {items : List JVal} (h : ∀ x ∈ items, KeysSorted x) :
      KeysSorted (.arr items)
  | obj {fields : List (String × JVal)}
      (hkeys : List.Pairwise (fun a b => strLEb a b = true)
        (fields.map Prod.fst))
      (hvals : ∀ p ∈ fields, KeysSorted p.2) : KeysSorted (.obj fields)

theorem foldArr_keysSorted (heap : Heap) (fuel : Nat)
    (ihf : ∀ v seen, KeysSorted (sortValue heap fuel v seen).1) :
    ∀ (items : List HVal) (acc : List JVal × List Nat),
      (∀ x ∈ acc.1, KeysSorted x) →
      ∀ x ∈ (items.foldl
          (fun (acc : List JVal × List Nat) it =>
            let p := sortValue heap fuel it acc.2
            (acc.1 ++ [p.1], p.2)) acc).1, KeysSorted x := by
  intro items
  induction items with
  | nil => intro acc hacc x hx; exact hacc x hx
  | cons it rest ihr =>
      intro acc hacc x hx
      simp only [List.foldl_cons] at hx
      refine ihr _ ?_ x hx
      intro y hy
      rcases List.mem_append.mp hy with h | h
      · exact hacc y h
      · have hy' : y = (sortValue heap fuel it acc.2).1 := by simpa using h
        rw [hy']
        exact ihf it acc.2

theorem foldObj_keysSorted (heap : Heap) (fuel : Nat)
    (ihf : ∀ v seen, KeysSorted (sortValue heap fuel v seen).1) :
    ∀ (fields : List (String × HVal)) (acc : List (String × JVal) × List Nat),
      (∀ p ∈ acc.1, KeysSorted p.2) →
      ∀ p ∈ (fields.foldl
          (fun (acc : List (String × JVal) × List Nat) f =>
            let q := sortValue heap fuel f.2 acc.2
            (acc.1 ++ [(f.1, q.1)], q.2)) acc).1, KeysSorted p.2 := by
  intro fields
  induction fields with
  | nil => intro acc hacc p hp; exact hacc p hp
  | cons f rest ihr =>
      intro acc hacc p hp
      simp only [List.foldl_cons] at hp
      refine ihr _ ?_ p hp
      intro q hq
      rcases List.mem_append.mp hq with h | h
      · exact hacc q h
      · have hq' : q = (f.1, (sortValue heap fuel f.2 acc.2).1) := by
          simpa using h
        rw [hq']
        exact ihf f.2 acc.2

theorem foldObj_keys (heap : Heap) (fuel : Nat) :
    ∀ (fields : List (String × HVal)) (acc : List (String × JVal) × List Nat),
      ((fields.foldl
          (fun (acc : List (String × JVal) × List Nat) f =>
            let q := sortValue heap fuel f.2 acc.2
            (acc.1 ++ [(f.1, q.1)], q.2)) acc).1).map Prod.fst =
        acc.1.map Prod.fst ++ fields.map Prod.fst := by
  intro fields
  induction fields with
  | nil => intro acc; simp
  | cons f rest ihr =>
      intro acc
      simp only [List.foldl_cons, List.map_cons]
      rw [ihr]
      simp

/-- Key-sortedness of every `sortValue` output. -/
theorem sortValue_keysSorted (heap : Heap) :
    ∀ (fuel : Nat) (v : HVal) (seen : List Nat),
      KeysSorted (sortValue heap fuel v seen).1 := by
  intro fuel
  induction fuel with
  | zero => intro v seen; exact KeysSorted.str _
  | succ fuel ih =>
      intro v seen
      cases v with
      | null => exact KeysSorted.null
      | bool b => exact KeysSorted.bool b
      | num n => exact KeysSorted.num n
      | str s => exact KeysSorted.str s
      | ref a =>
          simp only [sortValue]
          by_cases hmem : a ∈ seen
          · rw [if_pos hmem]; exact KeysSorted.str _
          · rw [if_neg hmem]
            cases hh : heap[a]? with
            | none => exact KeysSorted.null
            | some o =>
                cases o with
                | arr items =>
                    exact KeysSorted.arr
                      (foldArr_keysSorted heap fuel ih items ([], a :: seen)
                        (by intro x hx; simp at hx))
                | obj fields =>
                    refine KeysSorted.obj ?_ ?_
                    · rw [foldObj_keys heap fuel
                        (List.insertionSort keyLE fields) ([], a :: seen)]
                      simp only [List.map_nil, List.nil_append]
                      have hs := List.sorted_insertionSort keyLE fields
                      exact List.pairwise_map.mpr hs
                    · exact foldObj_keysSorted heap fuel ih
                        (List.insertionSort keyLE fields) ([], a :: seen)
                        (by intro p hp; simp at hp)

theorem foldArr_seen_mono (heap : Heap) (fuel : Nat)
    (ihf : ∀ v seen, seen ⊆ (sortValue heap fuel v seen).2) :
    ∀ (items : List HVal) (acc : List JVal × List Nat),
      acc.2 ⊆ (items.foldl
          (fun (acc : List JVal × List Nat) it =>
            let p := sortValue heap fuel it acc.2
            (acc.1 ++ [p.1], p.2)) acc).2 := by
  intro items
  induction items with
  | nil => intro acc; exact fun x hx => hx
  | cons it rest ihr =>
      intro acc
      simp only [List.foldl_cons]
      exact fun x hx => ihr _ (ihf it acc.2 hx)

theorem foldObj_seen_mono (heap : Heap) (fuel : Nat)
    (ihf : ∀ v seen, seen ⊆ (sortValue heap fuel v seen).2) :
    ∀ (fields : List (String × HVal)) (acc : List (String × JVal) × List Nat),
      acc.2 ⊆ (fields.foldl
          (fun (acc : List (String × JVal) × List Nat) f =>
            let q := sortValue heap fuel f.2 acc.2
            (acc.1 ++ [(f.1, q.1)], q.2)) acc).2 := by
  intro fields
  induction fields with
  | nil => intro acc; exact fun x hx => hx
  | cons f rest ihr =>
      intro acc
      simp only [List.foldl_cons]
      exact fun x hx => ihr _ (ihf f.2 acc.2 hx)

/-- The visited set only grows: an address added while serializing one
sibling is still present for all later siblings. -/
theorem sortValue_seen_mono (heap : Heap) :
    ∀ (fuel : Nat) (v : HVal) (seen : List Nat),
      seen ⊆ (sortValue heap fuel v seen).2 := by
  intro fuel
  induction fuel with
  | zero => intro v seen; exact fun x hx => hx
  | succ fuel ih =>
      intro v seen
      cases v with
      | null => exact fun x hx => hx
      | bool b => exact fun x hx => hx
      | num n => exact fun x hx => hx
      | str s => exact fun x hx => hx
      | ref a =>
          simp only [sortValue]
          by_cases hmem : a ∈ seen
          · rw [if_pos hmem]; exact fun x hx => hx
          · rw [if_neg hmem]
            have hsub : seen ⊆ a :: seen := fun x hx => List.mem_cons_of_mem _ hx
            cases hh : heap[a]? with
            | none => exact hsub
            | some o =>
                cases o with
                | arr items =>
                    exact fun x hx =>
                      foldArr_seen_mono heap fuel ih items ([], a :: seen)
                        (hsub hx)
                | obj fields =>
                    exact fun x hx =>
                      foldObj_seen_mono heap fuel ih
                        (List.insertionSort keyLE fields) ([], a :: seen)
                        (hsub hx)

/-- An acyclic heap in which the same (empty) object at address 0 is
referenced from two sibling positions of the array at address 1. -/
def exHeap : Heap := [HObj.obj [], HObj.arr [HVal.ref 0, HVal.ref 0]]

/-- C7 counterexample: serializing the acyclic array `[o, o]` (the same
empty object referenced twice as siblings) replaces the *second*
occurrence with `"[Circular]"` although no cycle exists — the source
tracks a visited set that is never pruned, not an ancestor set — so the
claim that both sibling occurrences are serialized in full is false. -/
theorem sortValue_shared_sibling_circular :
    (sortValue exHeap 6 (HVal.ref 1) []).1 =
        JVal.arr [JVal.obj [], JVal.str "[Circular]"]
    ∧ (sortValue exHeap 6 (HVal.ref 1) []).1 ≠
        JVal.arr [JVal.obj [], JVal.obj []] := by
  refine ⟨rfl, ?_⟩
  rw [show (sortValue exHeap 6 (HVal.ref 1) []).1 =
    JVal.arr [JVal.obj [], JVal.str "[Circular]"] from rfl]
  simp

/-- C7 (amended): `sortValue` is a pure function (deterministic by
construction), emits object keys in lexicographic order at every level,
and replaces with `"[Circular]"` every reference whose address is already
in the visited set — a set that only grows during the traversal, so a
shared acyclic reference is also replaced at its second occurrence (the
concrete two-sibling heap serializes to `[{}, "[Circular]"]`). -/
theorem sortValue_semantics (heap : Heap) (fuel : Nat) (v : HVal)
    (seen : List Nat) :
    KeysSorted (sortValue heap fuel v seen).1
    ∧ seen ⊆ (sortValue heap fuel v seen).2
    ∧ (∀ a : Nat, a ∈ seen →
        sortValue heap (fuel + 1) (.ref a) seen = (.str "[Circular]", seen))
    ∧ (sortValue exHeap 6 (HVal.ref 1) []).1 =
        JVal.arr [JVal.obj [], JVal.str "[Circular]"] := by
  refine ⟨sortValue_keysSorted heap fuel v seen,
    sortValue_seen_mono heap fuel v seen, ?_, rfl⟩
  intro a ha
  simp [sortValue, ha]

/-- Witness for C7 (amended) at a concrete input: the example heap with a
non-empty visited set. -/
theorem sortValue_semantics_witness :
    KeysSorted (sortValue exHeap 3 (HVal.ref 1) [0]).1
    ∧ ((0 : Nat) ∈ [(0 : Nat)]
      ∧ sortValue exHeap 3 (HVal.ref 0) [0] =
          (JVal.str "[Circular]", [0])) :=
  ⟨(sortValue_semantics exHeap 3 (HVal.ref 1) [0]).1,
   by decide,
   (sortValue_semantics exHeap 2 (HVal.ref 1) [0]).2.2.1 0 (by decide)⟩

end Serial

namespace Reducer

/-!
Model of `DefaultResultReducer.reduce` (reducer.ts) for *string* inputs —
the `typeof rawResult === "string"` branch — together with the host
primitives it relies on: `JSON.parse` (modelled by a fuelled recursive
descent parser producing `Serial.JVal`, with JSON numbers as exact
rationals), `stableStringify` (on a freshly parsed tree no reference is
ever revisited, so the `WeakSet` of `sortValue` never fires and
stable serialization is key-sorting followed by `JSON.stringify`), and
`TextEncoder`-based byte counting.  Number-to-string formatting is exact
for integers (the only numbers the theorems evaluate); non-integral
numbers use a placeholder format, and `\uXXXX` string escapes are not
modelled (no theorem exercises either). -/

open Serial

/-- UTF-8 length of one scalar value (Lean `Char`s are scalar values, so
this matches `TextEncoder` output length). -/
def utf8CharLen (c : Char) : Nat :=
  if c.toNat < 0x80 then 1
  else if c.toNat < 0x800 then 2
  else if c.toNat < 0x10000 then 3
  else 4

/-- `byteLength` from utils.ts on a well-formed string. -/
def byteLen (s : String) : Nat := (s.data.map utf8CharLen).sum

/-- The JSON whitespace characters (also what `String.prototype.trim`
strips in the inputs we model). -/
def wsChar (c : Char) : Bool :=
  c = ' ' ∨ c = '\t' ∨ c = '\n' ∨ c = '\r'

/-- `String.prototype.trim`. -/
def jsTrim (s : String) : String :=
  String.mk (((s.data.dropWhile wsChar).reverse.dropWhile wsChar).reverse)

/-- Skip JSON whitespace. -/
def skipWs (cs : List Char) : List Char := cs.dropWhile wsChar

/-- JSON string-body parser (after the opening quote): plain characters
and the single-character escapes; `\uXXXX` escapes are not modelled. -/
def parseStrBody : List Char → Option (List Char × List Char)
  | [] => none
  | '"' :: rest => some ([], rest)
  | '\\' :: e :: rest =>
      let esc : Option Char :=
        if e = '"' then some '"'
        else if e = '\\' then some '\\'
        else if e = '/' then some '/'
        else if e = 'n' then some '\n'
        else if e = 't' then some '\t'
        else if e = 'r' then some '\r'
        else none
      match esc with
      | none => none
      | some c =>
          match parseStrBody rest with
          | some (s, r) => some (c :: s, r)
          | none => none
  | c :: rest =>
      match parseStrBody rest with
      | some (s, r) => some (c :: s, r)
      | none => none

/-- Read a run of decimal digits. -/
def parseDigits : List Char → Option (Nat × Nat × List Char)
  | c :: rest =>
      if c.isDigit then
        match parseDigits rest with
        | some (v, k, r) =>
            some ((c.toNat - '0'.toNat) * 10 ^ k + v, k + 1, r)
        | none => some (c.toNat - '0'.toNat, 1, rest)
      else none
  | [] => none

/-- JSON number parser: optional sign, integer part without leading
zeros, optional fraction, optional exponent; the value is the exact
rational. -/
def parseNum (cs : List Char) : Option (ℚ × List Char) :=
  let (neg, cs1) : Bool × List Char :=
    match cs with
    | '-' :: rest => (true, rest)
    | _ => (false, cs)
  match parseDigits cs1 with
  | none => none
  | some (ip, ik, cs2) =>
      if 1 < ik ∧ cs1.headD ' ' = '0' then none
      else
        match cs2 with
        | '.' :: _ | 'e' :: _ | 'E' :: _ =>
            -- fraction / exponent form: the exact rational value
            let (frac, cs3) : ℚ × List Char :=
              match cs2 with
              | '.' :: rest =>
                  match parseDigits rest with
                  | some (fv, fk, r) => ((fv : ℚ) / (10 : ℚ) ^ fk, r)
                  | none => ((0 : ℚ), cs2)
              | _ => ((0 : ℚ), cs2)
            let (ex, cs4) : Int × List Char :=
              match cs3 with
              | 'e' :: rest | 'E' :: rest =>
                  let (eneg, rest1) : Bool × List Char :=
                    match rest with
                    | '-' :: r => (true, r)
                    | '+' :: r => (false, r)
                    | _ => (false, rest)
                  match parseDigits rest1 with
                  | some (ev, _, r) =>
                      ((if eneg then -(ev : Int) else (ev : Int)), r)
                  | none => ((0 : Int), cs3)
              | _ => ((0 : Int), cs3)
            let mag0 : ℚ := (ip : ℚ) + frac
            let mag : ℚ :=
              if 0 ≤ ex then mag0 * (10 : ℚ) ^ ex.toNat
              else mag0 / (10 : ℚ) ^ (-ex).toNat
            some ((if neg then -mag else mag), cs4)
        | _ =>
            -- plain integer form
            some ((if neg then -(ip : ℚ) else (ip : ℚ)), cs2)

/-- Match a literal keyword. -/
def expectLit : List Char → List Char → Option (List Char)
  | [], cs => some cs
  | l :: ls, c :: cs => if c = l then expectLit ls cs else none
  | _ :: _, [] => none

mutual

/-- Recursive-descent JSON value parser (model of `JSON.parse`), fuelled
by recursion depth. -/
def parseVal : Nat → List Char → Option (JVal × List Char)
  | 0, _ => none
  | fuel + 1, cs =>
      match skipWs cs with
      | [] => none
      | c :: rest =>
          if c = 'n' then
            (expectLit "ull".data rest).map (fun r => (JVal.null, r))
          else if c = 't' then
            (expectLit "rue".data rest).map (fun r => (JVal.bool true, r))
          else if c = 'f' then
            (expectLit "alse".data rest).map (fun r => (JVal.bool false, r))
          else if c = '"' then
            (parseStrBody rest).map
              (fun p => (JVal.str (String.mk p.1), p.2))
          else if c = '[' then
            match skipWs rest with
            | ']' :: r => some (JVal.arr [], r)
            | other =>
                match parseArrItems fuel other with
                | some (items, r) => some (JVal.arr items, r)
                | none => none
          else if c = '\x7b' then
            match skipWs rest with
            | '\x7d' :: r => some (JVal.obj [], r)
            | other =>
                match parseObjFields fuel other with
                | some (fields, r) => some (JVal.obj fields, r)
                | none => none
          else
            (parseNum (c :: rest)).map (fun p => (JVal.num p.1, p.2))

/-- Array elements after `[`, separated by `,`, ending at `]`. -/
def parseArrItems : Nat → List Char → Option (List JVal × List Char)
  | 0, _ => none
  | fuel + 1, cs =>
      match parseVal fuel cs with
      | none => none
      | some (v, rest) =>
          match skipWs rest with
          | ',' :: rest2 =>
              match parseArrItems fuel rest2 with
              | some (vs, r) => some (v :: vs, r)
              | none => none
          | ']' :: rest2 => some ([v], rest2)
          | _ => none

/-- Object members after `{`, separated by `,`, ending at `}`. -/
def parseObjFields : Nat → List Char →
    Option (List (String × JVal) × List Char)
  | 0, _ => none
  | fuel + 1, cs =>
      match skipWs cs with
      | '"' :: rest =>
          match parseStrBody rest with
          | none => none
          | some (k, rest1) =>
              match skipWs rest1 with
              | ':' :: rest2 =>
                  match parseVal fuel rest2 with
                  | none => none
                  | some (v, rest3) =>
                      match skipWs rest3 with
                      | ',' :: rest4 =>
                          match parseObjFields fuel rest4 with
                          | some (fs, r) =>
                              some ((String.mk k, v) :: fs, r)
                          | none => none
                      | '\x7d' :: rest4 =>
                          some ([(String.mk k, v)], rest4)
                      | _ => none
              | _ => none
      | _ => none

end

/-- `tryParseJson` from reducer.ts: trim; empty or not starting with `{`
or `[` gives `undefined`; otherwise `JSON.parse`, with failures swallowed
(a trailing remainder after the value is a parse error). -/
def tryParseJsonF (fuel : Nat) (s : String) : Option JVal :=
  let t := jsTrim s
  match t.data with
  | [] => none
  | c :: _ =>
      if c = '\x7b' ∨ c = '[' then
        match parseVal fuel t.data with
        | some (v, rest) => if skipWs rest = [] then some v else none
        | none => none
      else none

/-- JSON string quoting for `JSON.stringify` (tame characters only;
control characters other than the common escapes are not modelled). -/
def quoteJson (s : String) : String :=
  let esc : Char → String := fun c =>
    if c = '"' then "\\\""
    else if c = '\\' then "\\\\"
    else if c = '\n' then "\\n"
    else if c = '\t' then "\\t"
    else if c = '\r' then "\\r"
    else String.singleton c
  "\"" ++ String.join (s.data.map esc) ++ "\""

/-- JS number formatting: exact for integers; non-integral rationals use
a placeholder fraction format (never exercised by a theorem). -/
def numToString (q : ℚ) : String :=
  if q.den = 1 then toString q.num
  else toString q.num ++ "/" ++ toString q.den

/-- `JSON.stringify` on an already-key-sorted tree (fuelled by depth). -/
def jsonStringifyF : Nat → JVal → String
  | 0, _ => ""
  | _ + 1, .null => "null"
  | _ + 1, .bool b => if b then "true" else "false"
  | _ + 1, .num q => numToString q
  | _ + 1, .str s => quoteJson s
  | fuel + 1, .arr items =>
      "[" ++ String.intercalate "," (items.map (jsonStringifyF fuel)) ++ "]"
  | fuel + 1, .obj fields =>
      "\x7b" ++ String.intercalate ","
        (fields.map (fun f => quoteJson f.1 ++ ":" ++ jsonStringifyF fuel f.2))
        ++ "\x7d"

/-- Key order used by `sortValue`/`reduceStructuredValue` on plain
trees. -/
def keyLEJ (p q : String × JVal) : Prop := strLEb p.1 q.1 = true

instance : DecidableRel keyLEJ := fun p q =>
  instDecidableEqBool (strLEb p.1 q.1) true

/-- The recursive key-sorting performed by `sortValue` on a freshly
parsed tree (no reference is visited twice, so the cycle check never
fires). -/
def sortJF : Nat → JVal → JVal
  | 0, v => v
  | _ + 1, .null => .null
  | _ + 1, .bool b => .bool b
  | _ + 1, .num q => .num q
  | _ + 1, .str s => .str s
  | fuel + 1, .arr items => .arr (items.map (sortJF fuel))
  | fuel + 1, .obj fields =>
      .obj ((List.insertionSort keyLEJ fields).map
        (fun f => (f.1, sortJF fuel f.2)))

/-- `stableStringify` from utils.ts on a freshly parsed tree. -/
def stableStringifyF (fuel : Nat) (v : JVal) : String :=
  jsonStringifyF fuel (sortJF fuel v)

/-- The merged reducer options (JS numbers holding the caps; `Int`
because a policy can supply any number). -/
structure RedOptions where
  maxTextBytes : Int
  maxStructuredBytes : Int
  maxStructuredKeys : Int
  maxStructuredItems : Int
  maxDepth : Int
deriving DecidableEq

/-- `DEFAULT_OPTIONS` from reducer.ts. -/
def defaultRedOptions : RedOptions :=
  { maxTextBytes := 12000, maxStructuredBytes := 24000,
    maxStructuredKeys := 200, maxStructuredItems := 200, maxDepth := 6 }

/-- A per-call `policy` record: finite numbers override, anything else
falls back (mergePolicy's `readNumber`). -/
structure Policy where
  maxTextBytes : Option Int := none
  maxStructuredBytes : Option Int := none
  maxStructuredKeys : Option Int := none
  maxStructuredItems : Option Int := none
  maxDepth : Option Int := none
deriving DecidableEq

/-- `DefaultResultReducer.mergePolicy`. -/
def mergePolicy (base : RedOptions) : Option Policy → RedOptions
  | none => base
  | some p =>
      { maxTextBytes := p.maxTextBytes.getD base.maxTextBytes,
        maxStructuredBytes := p.maxStructuredBytes.getD base.maxStructuredBytes,
        maxStructuredKeys := p.maxStructuredKeys.getD base.maxStructuredKeys,
        maxStructuredItems := p.maxStructuredItems.getD base.maxStructuredItems,
        maxDepth := p.maxDepth.getD base.maxDepth }

/-- `reduceStructuredValue` from reducer.ts.  The first argument is the
remaining depth `maxDepth - depth` (0 means `depth ≥ maxDepth`, the
`[Truncated]` sentinel; a non-positive `maxDepth` starts at 0).  Arrays
keep their first `min(length, maxStructuredItems)` elements; objects sort
their keys, keep the first `min(length, maxStructuredKeys)` of them and
skip a falsy (empty) key; primitives pass through. -/
def reduceStructuredValue (opts : RedOptions) : Nat → JVal → JVal
  | 0, _ => .str "[Truncated]"
  | _ + 1, .null => .null
  | _ + 1, .bool b => .bool b
  | _ + 1, .num q => .num q
  | _ + 1, .str s => .str s
  | rem + 1, .arr items =>
      let limit := (min (items.length : Int) opts.maxStructuredItems).toNat
      .arr ((items.take limit).map (reduceStructuredValue opts rem))
  | rem + 1, .obj fields =>
      let sorted := List.insertionSort keyLEJ fields
      let limit := (min (fields.length : Int) opts.maxStructuredKeys).toNat
      .obj (((sorted.take limit).filter (fun f => f.1 ≠ "")).map
        (fun f => (f.1, reduceStructuredValue opts rem f.2)))

/-- The binary search of `truncateByBytes` at character granularity (see
`Utf16.truncateByBytes` for the exact code-unit model; this variant is
only reached when the text exceeds the byte cap, which no theorem below
exercises). -/
def truncSearch (cs : List Char) (maxBytes : Int) :
    Nat → Nat → Nat → Nat
  | 0, low, _ => low
  | fuel + 1, low, high =>
      if low < high then
        let mid := (low + high + 1) / 2
        if ((cs.take mid).map utf8CharLen).sum ≤ maxBytes.toNat then
          truncSearch cs maxBytes fuel mid high
        else
          truncSearch cs maxBytes fuel low (mid - 1)
      else low

/-- `truncateByBytes` from utils.ts at character granularity. -/
def truncateByBytesStr (s : String) (maxBytes : Int) : String × Nat :=
  if maxBytes ≤ 0 then ("", byteLen s)
  else if (byteLen s : Int) ≤ maxBytes then (s, 0)
  else
    let low := truncSearch s.data maxBytes (s.data.length + 1) 0 s.data.length
    let t := String.mk (s.data.take low)
    (t, byteLen s - byteLen t)

/-- `ReducedToolResult` for the string input path (`structured` may be
dropped). -/
structure ReducedResult where
  text : String
  structured : Option JVal
  droppedBytes : Nat
  droppedTokensEstimate : Nat
  notes : List String

/-- `parsed && typeof parsed === "object"`: JSON arrays and objects (and
not `null`). -/
def jsonObjArr : Option JVal → Option JVal
  | some (.arr l) => some (.arr l)
  | some (.obj f) => some (.obj f)
  | _ => none

/-- `DefaultResultReducer.reduce` on a string `rawResult` (reducer.ts
lines 110-116 and 146-195): record the string as `text`; if it parses as
a JSON object/array note `parsed_json` and run the structured-trimming
step (charging `max(0, before - after)` dropped bytes, or the whole
`before` when the trimmed serialization still exceeds
`maxStructuredBytes`); then truncate `text` to `maxTextBytes`; finally
estimate dropped tokens as `ceil(droppedBytes / 4)`.  A string input is
never `isError`, so no `[error]` prefix applies. -/
def reduceString (opts : RedOptions) (fuel : Nat) (s : String) :
    ReducedResult :=
  let structured0 := jsonObjArr (tryParseJsonF fuel s)
  let notes0 : List String :=
    if structured0.isSome then ["parsed_json"] else []
  let step2 : Option JVal × Nat × List String :=
    match structured0 with
    | none => (none, 0, notes0)
    | some v =>
        let before := byteLen (stableStringifyF fuel v)
        let reduced := reduceStructuredValue opts opts.maxDepth.toNat v
        let afterBytes := byteLen (stableStringifyF fuel reduced)
        if (afterBytes : Int) > opts.maxStructuredBytes then
          (none, before, notes0 ++ ["structured_dropped"])
        else if afterBytes < before then
          (some reduced, before - afterBytes, notes0 ++ ["structured_trimmed"])
        else (some reduced, before - afterBytes, notes0)
  let step3 : String × Nat × List String :=
    if (byteLen s : Int) > opts.maxTextBytes then
      let tr := truncateByBytesStr s opts.maxTextBytes
      (tr.1, step2.2.1 + tr.2, step2.2.2 ++ ["text_truncated"])
    else (s, step2.2.1, step2.2.2)
  { text := step3.1, structured := step2.1,
    droppedBytes := step3.2.1,
    droppedTokensEstimate :=
      if 0 < step3.2.1 then (step3.2.1 + 3) / 4 else 0,
    notes := step3.2.2 }

/-- The merged options of the C9 counterexample: defaults with the
per-call policy `{maxStructuredItems: 1}` (both *byte* budgets stay at
their defaults). -/
def c9opts : RedOptions :=
  mergePolicy defaultRedOptions (some { maxStructuredItems := some 1 })

/-- C9 counterexample: the pure string input `"[0,0]"` fits every byte
budget (5 bytes against `maxTextBytes = 12000` and
`maxStructuredBytes = 24000`), yet because it parses as a JSON array the
reducer records a trimmed `structured` value and charges the trimming
delta: `droppedBytes = 2 ≠ 0`, refuting `droppedBytes == 0` for string
inputs within all byte budgets (the text itself is still returned
unchanged). -/
theorem reduce_json_string_drops_bytes :
    (byteLen "[0,0]" : Int) ≤ c9opts.maxTextBytes
    ∧ (byteLen "[0,0]" : Int) ≤ c9opts.maxStructuredBytes
    ∧ (reduceString c9opts 12 "[0,0]").text = "[0,0]"
    ∧ (reduceString c9opts 12 "[0,0]").droppedBytes = 2
    ∧ (reduceString c9opts 12 "[0,0]").notes =
        ["parsed_json", "structured_trimmed"]
    ∧ (reduceString c9opts 12 "[0,0]").droppedBytes ≠ 0 := by
  exact ⟨by decide, by decide, rfl, rfl, rfl, by decide⟩

/-- C9 (amended): for a string input whose byte length is within
`maxTextBytes`, `reduce` returns the text unchanged; and when the string
does not parse as JSON (so no structured trimming can be charged),
`droppedBytes = 0`.  Strings that do parse as a JSON object or array may
be charged structured-trimming bytes even within all byte budgets (see
the counterexample). -/
theorem reduce_string_within_budget (opts : RedOptions) (fuel : Nat)
    (s : String) (hb : (byteLen s : Int) ≤ opts.maxTextBytes) :
    (reduceString opts fuel s).text = s
    ∧ (tryParseJsonF fuel s = none →
        (reduceString opts fuel s).droppedBytes = 0) := by
  have hnt : ¬ ((byteLen s : Int) > opts.maxTextBytes) := not_lt.mpr hb
  constructor
  · simp only [reduceString]
    rw [if_neg hnt]
  · intro hparse
    have h0 : jsonObjArr (tryParseJsonF fuel s) = none := by
      rw [hparse]
      rfl
    simp only [reduceString, h0]
    rw [if_neg hnt]

/-- Witness for C9 (amended) at a concrete input: the plain string
`"hello"` under default options. -/
theorem reduce_string_within_budget_witness :
    ((byteLen "hello" : Int) ≤ defaultRedOptions.maxTextBytes)
    ∧ (reduceString defaultRedOptions 4 "hello").text = "hello"
    ∧ (reduceString defaultRedOptions 4 "hello").droppedBytes = 0 :=
  ⟨by decide,
   (reduce_string_within_budget defaultRedOptions 4 "hello" (by decide)).1,
   (reduce_string_within_budget defaultRedOptions 4 "hello" (by decide)).2
     (by rfl)⟩

end Reducer

namespace Search

/-!
Model of `SimpleTokenizer` (tokenizer.ts) and BM25 scoring
(`Bm25Index.build`/`score`, bm25.ts) with the default options: `k1 = 1.2`,
`b = 0.75`, `exactMatchBoost = 1.5`, `prefixMatchBoost = 0.4`,
`popularityBoost = 0.05`, `minScore = 0`, the `DEFAULT_WEIGHTS` field
weights, the default stopword list and `minTokenLength = 2`.  The lowering
step models `toLowerCase` on ASCII letters (every string scored below is
ASCII).  All counting is exact (`Nat`/`ℚ`); only the `Math.log` factors
live in `ℝ`. -/

/-- `/[_\-]+/` characters. -/
def isUD (c : Char) : Bool := c = '_' ∨ c = '-'

/-- Replace every run of characters satisfying `p` by a single space
(the `replace(/X+/g, " ")` steps). -/
def collapseRuns (p : Char → Bool) : List Char → List Char
  | [] => []
  | c :: rest =>
      if p c then
        match rest with
        | d :: _ =>
            if p d then collapseRuns p rest else ' ' :: collapseRuns p rest
        | [] => [' ']
      else c :: collapseRuns p rest

/-- Non-overlapping global replace of a two-character pattern
`(p)(q)` by `$1 $2` (the camelCase / letter-digit boundary splits). -/
def pairSplit (p q : Char → Bool) : List Char → List Char
  | a :: b :: rest =>
      if p a && q b then a :: ' ' :: b :: pairSplit p q rest
      else a :: pairSplit p q (b :: rest)
  | l => l

/-- `[a-z0-9]`. -/
def isLowerDigit (c : Char) : Bool :=
  (97 ≤ c.toNat ∧ c.toNat ≤ 122) ∨ (48 ≤ c.toNat ∧ c.toNat ≤ 57)

/-- `[A-Z]`. -/
def isUpperC (c : Char) : Bool := 65 ≤ c.toNat ∧ c.toNat ≤ 90

/-- `[A-Za-z]`. -/
def isLetterC (c : Char) : Bool :=
  (65 ≤ c.toNat ∧ c.toNat ≤ 90) ∨ (97 ≤ c.toNat ∧ c.toNat ≤ 122)

/-- `[0-9]`. -/
def isDigitC (c : Char) : Bool := 48 ≤ c.toNat ∧ c.toNat ≤ 57

/-- ASCII `toLowerCase`. -/
def toLowerAscii (c : Char) : Char :=
  if 65 ≤ c.toNat ∧ c.toNat ≤ 90 then Char.ofNat (c.toNat + 32) else c

/-- Strip leading and trailing spaces (after the `[^a-z0-9]+` replacement
the only whitespace left is the space). -/
def trimSpaces (cs : List Char) : List Char :=
  ((cs.dropWhile (· = ' ')).reverse.dropWhile (· = ' ')).reverse

/-- `normalizeText` from tokenizer.ts, steps in source order. -/
def normalizeText (s : String) : String :=
  if s = "" then ""
  else
    let s1 := collapseRuns isUD s.data
    let s2 := pairSplit isLowerDigit isUpperC s1
    let s3 := pairSplit isLetterC isDigitC s2
    let s4 := pairSplit isDigitC isLetterC s3
    let s5 := s4.map toLowerAscii
    let s6 := collapseRuns (fun c => !isLowerDigit c) s5
    String.mk (trimSpaces s6)

/-- Split on space runs, dropping empty parts (`split(/\s+/g)` on a
trimmed single-space string). -/
def splitAux (c : Char) (acc : List (List Char)) : List (List Char) :=
  if c = ' ' then
    match acc with
    | [] :: _ => acc
    | _ => [] :: acc
  else
    match acc with
    | w :: rest => (c :: w) :: rest
    | [] => [[c]]

/-- The word list of a normalized string. -/
def splitSp (cs : List Char) : List (List Char) :=
  (cs.foldr splitAux []).filter (fun w => w ≠ [])

/-- `DEFAULT_STOPWORDS` from tokenizer.ts (duplicates preserved). -/
def DEFAULT_STOPWORDS : List String :=
  ["a", "an", "the", "in", "on", "at", "to", "for", "of", "with", "by",
   "from", "as", "into", "through", "during", "before", "after", "above",
   "below", "between", "under",
   "and", "or", "but", "so", "yet", "nor", "i", "you", "he", "she", "it",
   "we", "they", "me", "him", "her", "us", "them", "my", "your", "his",
   "its", "our", "their",
   "is", "are", "was", "were", "be", "been", "being", "have", "has", "had",
   "do", "does", "did", "will", "would", "could", "should", "may", "might",
   "can", "shall",
   "get", "use", "make", "take", "go", "come", "see", "know", "look",
   "find", "give", "tell", "ask", "work", "seem", "feel", "try", "leave",
   "call",
   "any", "all", "some", "many", "much", "more", "most", "other",
   "another", "such", "only", "own", "same", "few", "lot",
   "so", "just", "now", "then", "here", "there", "up", "down", "out",
   "off", "over", "again", "further", "once", "too", "very",
   "this", "that", "these", "those", "than", "also", "back", "after",
   "used", "using",
   "please", "help", "sure", "way", "need", "want", "like", "new", "good",
   "best", "well", "easy", "simple", "quick", "fast", "available",
   "ready", "clean"]

/-- `SimpleTokenizer.tokenize` with the default `minTokenLength = 2` and
default stopwords. -/
def tokenize (s : String) : List String :=
  let normalized := normalizeText s
  if normalized = "" then []
  else
    ((splitSp normalized.data).map String.mk).filter
      (fun t => 2 ≤ t.length && !(DEFAULT_STOPWORDS.contains t))

/-- `normalizeForMatch`: normalized text with all spaces removed. -/
def normalizeForMatch (s : String) : String :=
  String.mk ((normalizeText s).data.filter (fun c => c ≠ ' '))

/-- The nine searchable fields. -/
inductive Field where
  | name | title | synonyms | description | argNames | argDescs
  | tags | examples | serverId
deriving DecidableEq

/-- `FIELD_KEYS` in source order. -/
def FIELD_KEYS : List Field :=
  [.name, .title, .synonyms, .description, .argNames, .argDescs, .tags,
   .examples, .serverId]

/-- Field projection of a `ToolSearchDoc`. -/
def docField (d : Catalog.ToolSearchDoc) : Field → String
  | .name => d.name
  | .title => d.title
  | .synonyms => d.synonyms
  | .description => d.description
  | .argNames => d.argNames
  | .argDescs => d.argDescs
  | .tags => d.tags
  | .examples => d.examples
  | .serverId => d.serverId

/-- `DEFAULT_WEIGHTS` from shared/types as exact rationals. -/
def weight : Field → ℚ
  | .name => 4
  | .title => 2
  | .synonyms => 5/2
  | .description => 9/5
  | .argNames => 7/5
  | .argDescs => 6/5
  | .tags => 6/5
  | .examples => 9/10
  | .serverId => 1/5

/-- `k1` default. -/
def k1 : ℚ := 6/5

/-- `b` default. -/
def bParam : ℚ := 3/4

/-- Tokens of one field of a document (`tokenizer.tokenize(doc[field])`
at index build time). -/
def fieldTokens (d : Catalog.ToolSearchDoc) (f : Field) : List String :=
  tokenize (docField d f)

/-- Term frequency of `tok` in field `f` (`fieldTokenCounts`). -/
def tf (d : Catalog.ToolSearchDoc) (f : Field) (tok : String) : Nat :=
  (fieldTokens d f).count tok

/-- Field length in tokens (`fieldLengths`). -/
def fieldLen (d : Catalog.ToolSearchDoc) (f : Field) : Nat :=
  (fieldTokens d f).length

/-- Does the document contain `tok` in any field (`uniqueTokens`)? -/
def containsToken (d : Catalog.ToolSearchDoc) (tok : String) : Bool :=
  FIELD_KEYS.any (fun f => (fieldTokens d f).contains tok)

/-- Document frequency of `tok` over the catalog (`docFreq`). -/
def df (cards : List Catalog.ToolCard) (tok : String) : Nat :=
  (cards.map Catalog.buildSearchDoc).countP (fun d => containsToken d tok)

/-- Average field length over all documents (`avgFieldLength`), as built:
total length divided by the document count. -/
def avgLen (cards : List Catalog.ToolCard) (f : Field) : ℚ :=
  ((cards.map (fun t => fieldLen (Catalog.buildSearchDoc t) f)).sum : ℚ) /
    (cards.length : ℚ)

/-- The BM25 term-frequency factor: `tf·(k1+1) / (tf + k1·(1−b+b·L/Lavg))`
with `Lavg` read as 1 when the stored average is 0 (the `|| 1`
fallback). -/
def tfScore (tfv : Nat) (len : Nat) (avg : ℚ) : ℚ :=
  let avgL := if avg = 0 then 1 else avg
  let norm := (len : ℚ) / avgL
  let denom := (tfv : ℚ) + k1 * (1 - bParam + bParam * norm)
  if 0 < denom then ((tfv : ℚ) * (k1 + 1)) / denom else 0

/-- The inner field loop of `Bm25Index.score` for one query token: sum of
`weight[f] · tfScore` over the fields where the token occurs. -/
def fieldSum (cards : List Catalog.ToolCard) (d : Catalog.ToolSearchDoc)
    (tok : String) : ℚ :=
  (FIELD_KEYS.map (fun f =>
    if tf d f tok = 0 then 0
    else weight f * tfScore (tf d f tok) (fieldLen d f) (avgLen cards f))).sum

/-- The idf argument: `1 + (N − df + 0.5)/(df + 0.5)`. -/
def idfArg (cards : List Catalog.ToolCard) (tok : String) : ℚ :=
  1 + ((cards.length : ℚ) - (df cards tok : ℚ) + 1/2) /
    ((df cards tok : ℚ) + 1/2)

/-- First-occurrence deduplication (`Array.from(new Set(queryTokens))`). -/
def dedup (l : List String) : List String :=
  l.foldl (fun acc x => if x ∈ acc then acc else acc ++ [x]) []

/-- One query token's contribution to a document's score:
`idf · (1 + ln qtf) · Σ_f weight·tfScore`, skipped when the token is
absent from the corpus. -/
noncomputable def tokenTerm (cards : List Catalog.ToolCard)
    (d : Catalog.ToolSearchDoc) (tok : String) (qtf : Nat) : ℝ :=
  if df cards tok = 0 then 0
  else Real.log ((idfArg cards tok : ℚ) : ℝ) *
    (1 + Real.log (qtf : ℝ)) * ((fieldSum cards d tok : ℚ) : ℝ)

/-- `a.startsWith(b)`. -/
def startsWithStr (a b : String) : Bool := List.isPrefixOf b.data a.data

/-- `Bm25Index.score` for one document with default parameters and no
filters: the BM25 sum over the unique query tokens, plus the exact/name
boost on the non-empty trimmed query, plus the popularity boost. -/
noncomputable def scoreOf (cards : List Catalog.ToolCard)
    (queryText : String) (t : Catalog.ToolCard) : ℝ :=
  let d := Catalog.buildSearchDoc t
  let qTokens := tokenize queryText
  let uniq := dedup qTokens
  let bm : ℝ :=
    (uniq.map (fun tok => tokenTerm cards d tok (qTokens.count tok))).sum
  let nq := Reducer.jsTrim queryText
  let boost : ℝ :=
    if nq = "" then 0
    else
      let nName := normalizeForMatch d.name
      let nQuery := normalizeForMatch nq
      if nName ≠ "" ∧ nName = nQuery then (3/2 : ℝ)
      else if nName ≠ "" ∧ nQuery ≠ "" ∧ startsWithStr nName nQuery = true
        then (2/5 : ℝ)
      else 0
  let pop : ℝ :=
    match t.popularity with
    | some p => Real.log (1 + ((max 0 p : ℚ) : ℝ)) * (1/20 : ℝ)
    | none => 0
  bm + boost + pop

/-- Hit ordering: score descending, `toolId` ascending on ties. -/
def hitLE (a b : String × ℝ) : Prop :=
  b.2 < a.2 ∨ (a.2 = b.2 ∧ strLEb a.1 b.1 = true)

noncomputable instance : DecidableRel hitLE := fun a b =>
  Classical.propDecidable (hitLE a b)

/-- `Bm25SearchEngine.query` with default parameters and no filters on a
consistent snapshot holding exactly `cards`: score every document, keep
scores above `minScore = 0`, sort descending with `toolId` tie-break and
return the first `topK` (none when `topK = 0`). -/
noncomputable def queryBm25 (cards : List Catalog.ToolCard)
    (queryText : String) (topK : Nat) : List (String × ℝ) :=
  if (tokenize queryText).length = 0 ∨ cards.length = 0 then []
  else
    let scored := cards.map (fun t => (t.toolId, scoreOf cards queryText t))
    let kept := scored.filter (fun h => decide (0 < h.2))
    let sorted := List.insertionSort hitLE kept
    if 0 < topK then sorted.take topK else []

/-- The two-tool catalog of the C8 scenario. -/
def postCard : Catalog.ToolCard :=
  { toolId := "slack:post_message", toolName := "post_message",
    serverId := "slack",
    description := some "Post a new message to a Slack channel" }

/-- The runner-up tool of the C8 scenario. -/
def searchCard : Catalog.ToolCard :=
  { toolId := "slack:search_messages", toolName := "search_messages",
    serverId := "slack",
    description := some "Search for a message in the workspace" }

/-- The C8 catalog. -/
def c8Cards : List Catalog.ToolCard := [postCard, searchCard]

theorem avg_name : avgLen c8Cards Field.name = 2 := by
  have h : (c8Cards.map
      (fun t => fieldLen (Catalog.buildSearchDoc t) Field.name)).sum = 4 := by
    decide
  have hl : c8Cards.length = 2 := by decide
  rw [avgLen, h, hl]
  norm_num

theorem avg_desc : avgLen c8Cards Field.description = 7/2 := by
  have h : (c8Cards.map
      (fun t => fieldLen (Catalog.buildSearchDoc t) Field.description)).sum
      = 7 := by
    decide
  have hl : c8Cards.length = 2 := by decide
  rw [avgLen, h, hl]
  norm_num

theorem ts_name2 : tfScore 1 2 2 = 1 := by
  rw [tfScore]
  norm_num [k1, bParam]

theorem ts_desc4 : tfScore 1 4 (7/2) = 154/163 := by
  rw [tfScore]
  norm_num [k1, bParam]

theorem ts_desc3 : tfScore 1 3 (7/2) = 154/145 := by
  rw [tfScore]
  norm_num [k1, bParam]

theorem fs_post_post :
    fieldSum c8Cards (Catalog.buildSearchDoc postCard) "post" = 4646/815 := by
  have t1 : tf (Catalog.buildSearchDoc postCard) Field.name "post" = 1 := by
    decide
  have t2 : tf (Catalog.buildSearchDoc postCard) Field.title "post" = 0 := by
    decide
  have t3 : tf (Catalog.buildSearchDoc postCard) Field.synonyms "post" = 0 := by
    decide
  have t4 : tf (Catalog.buildSearchDoc postCard) Field.description "post" = 1 := by
    decide
  have t5 : tf (Catalog.buildSearchDoc postCard) Field.argNames "post" = 0 := by
    decide
  have t6 : tf (Catalog.buildSearchDoc postCard) Field.argDescs "post" = 0 := by
    decide
  have t7 : tf (Catalog.buildSearchDoc postCard) Field.tags "post" = 0 := by
    decide
  have t8 : tf (Catalog.buildSearchDoc postCard) Field.examples "post" = 0 := by
    decide
  have t9 : tf (Catalog.buildSearchDoc postCard) Field.serverId "post" = 0 := by
    decide
  have l1 : fieldLen (Catalog.buildSearchDoc postCard) Field.name = 2 := by
    decide
  have l4 : fieldLen (Catalog.buildSearchDoc postCard) Field.description = 4 := by
    decide
  simp only [fieldSum, FIELD_KEYS, List.map_cons, List.map_nil,
    List.sum_cons, List.sum_nil, t1, t2, t3, t4, t5, t6, t7, t8, t9,
    l1, l4, avg_name, avg_desc]
  rw [ts_name2, ts_desc4]
  norm_num [weight]

theorem fs_post_msg :
    fieldSum c8Cards (Catalog.buildSearchDoc postCard) "message"
      = 4646/815 := by
  have t1 : tf (Catalog.buildSearchDoc postCard) Field.name "message" = 1 := by
    decide
  have t2 : tf (Catalog.buildSearchDoc postCard) Field.title "message" = 0 := by
    decide
  have t3 : tf (Catalog.buildSearchDoc postCard) Field.synonyms "message" = 0 := by
    decide
  have t4 : tf (Catalog.buildSearchDoc postCard) Field.description "message" = 1 := by
    decide
  have t5 : tf (Catalog.buildSearchDoc postCard) Field.argNames "message" = 0 := by
    decide
  have t6 : tf (Catalog.buildSearchDoc postCard) Field.argDescs "message" = 0 := by
    decide
  have t7 : tf (Catalog.buildSearchDoc postCard) Field.tags "message" = 0 := by
    decide
  have t8 : tf (Catalog.buildSearchDoc postCard) Field.examples "message" = 0 := by
    decide
  have t9 : tf (Catalog.buildSearchDoc postCard) Field.serverId "message" = 0 := by
    decide
  have l1 : fieldLen (Catalog.buildSearchDoc postCard) Field.name = 2 := by
    decide
  have l4 : fieldLen (Catalog.buildSearchDoc postCard) Field.description = 4 := by
    decide
  simp only [fieldSum, FIELD_KEYS, List.map_cons, List.map_nil,
    List.sum_cons, List.sum_nil, t1, t2, t3, t4, t5, t6, t7, t8, t9,
    l1, l4, avg_name, avg_desc]
  rw [ts_name2, ts_desc4]
  norm_num [weight]

theorem fs_search_post :
    fieldSum c8Cards (Catalog.buildSearchDoc searchCard) "post" = 0 := by
  have t1 : tf (Catalog.buildSearchDoc searchCard) Field.name "post" = 0 := by
    decide
  have t2 : tf (Catalog.buildSearchDoc searchCard) Field.title "post" = 0 := by
    decide
  have t3 : tf (Catalog.buildSearchDoc searchCard) Field.synonyms "post" = 0 := by
    decide
  have t4 : tf (Catalog.buildSearchDoc searchCard) Field.description "post" = 0 := by
    decide
  have t5 : tf (Catalog.buildSearchDoc searchCard) Field.argNames "post" = 0 := by
    decide
  have t6 : tf (Catalog.buildSearchDoc searchCard) Field.argDescs "post" = 0 := by
    decide
  have t7 : tf (Catalog.buildSearchDoc searchCard) Field.tags "post" = 0 := by
    decide
  have t8 : tf (Catalog.buildSearchDoc searchCard) Field.examples "post" = 0 := by
    decide
  have t9 : tf (Catalog.buildSearchDoc searchCard) Field.serverId "post" = 0 := by
    decide
  simp only [fieldSum, FIELD_KEYS, List.map_cons, List.map_nil,
    List.sum_cons, List.sum_nil, t1, t2, t3, t4, t5, t6, t7, t8, t9]
  norm_num

theorem fs_search_msg :
    fieldSum c8Cards (Catalog.buildSearchDoc searchCard) "message"
      = 1386/725 := by
  have t1 : tf (Catalog.buildSearchDoc searchCard) Field.name "message" = 0 := by
    decide
  have t2 : tf (Catalog.buildSearchDoc searchCard) Field.title "message" = 0 := by
    decide
  have t3 : tf (Catalog.buildSearchDoc searchCard) Field.synonyms "message" = 0 := by
    decide
  have t4 : tf (Catalog.buildSearchDoc searchCard) Field.description "message" = 1 := by
    decide
  have t5 : tf (Catalog.buildSearchDoc searchCard) Field.argNames "message" = 0 := by
    decide
  have t6 : tf (Catalog.buildSearchDoc searchCard) Field.argDescs "message" = 0 := by
    decide
  have t7 : tf (Catalog.buildSearchDoc searchCard) Field.tags "message" = 0 := by
    decide
  have t8 : tf (Catalog.buildSearchDoc searchCard) Field.examples "message" = 0 := by
    decide
  have t9 : tf (Catalog.buildSearchDoc searchCard) Field.serverId "message" = 0 := by
    decide
  have l4 : fieldLen (Catalog.buildSearchDoc searchCard) Field.description = 3 := by
    decide
  simp only [fieldSum, FIELD_KEYS, List.map_cons, List.map_nil,
    List.sum_cons, List.sum_nil, t1, t2, t3, t4, t5, t6, t7, t8, t9,
    l4, avg_desc]
  rw [ts_desc3]
  norm_num [weight]

theorem df_post : df c8Cards "post" = 1 := by decide

theorem df_msg : df c8Cards "message" = 2 := by decide

theorem idf_post : idfArg c8Cards "post" = 2 := by
  have hl : c8Cards.length = 2 := by decide
  rw [idfArg, df_post, hl]
  norm_num

theorem idf_msg : idfArg c8Cards "message" = 6/5 := by
  have hl : c8Cards.length = 2 := by decide
  rw [idfArg, df_msg, hl]
  norm_num

theorem tok_q : tokenize "post_message" = ["post", "message"] := by decide

theorem dedup_q : dedup ["post", "message"] = ["post", "message"] := by
  decide

theorem scorePost_eq : scoreOf c8Cards "post_message" postCard
    = Real.log 2 * (4646/815 : ℝ) + Real.log (6/5) * (4646/815 : ℝ)
      + 3/2 := by
  simp only [scoreOf, tok_q, dedup_q]
  have hc1 : List.count "post" ["post", "message"] = 1 := by decide
  have hc2 : List.count "message" ["post", "message"] = 1 := by decide
  simp only [List.map_cons, List.map_nil, List.sum_cons, List.sum_nil,
    hc1, hc2]
  rw [tokenTerm, tokenTerm]
  rw [if_neg (by rw [df_post]; norm_num),
    if_neg (by rw [df_msg]; norm_num)]
  rw [idf_post, idf_msg, fs_post_post, fs_post_msg]
  have htrim : Reducer.jsTrim "post_message" = "post_message" := by decide
  rw [htrim]
  have hne : ¬ ("post_message" = "") := by decide
  rw [if_neg hne]
  have hnm : normalizeForMatch (Catalog.buildSearchDoc postCard).name
      = "postmessage" := by decide
  have hnq : normalizeForMatch "post_message" = "postmessage" := by decide
  rw [hnm, hnq]
  rw [if_pos (by exact ⟨by decide, rfl⟩)]
  have hpop : postCard.popularity = Option.none := rfl
  rw [hpop]
  push_cast
  simp [Real.log_one]

theorem scoreSearch_eq : scoreOf c8Cards "post_message" searchCard
    = Real.log (6/5) * (1386/725 : ℝ) := by
  simp only [scoreOf, tok_q, dedup_q]
  have hc1 : List.count "post" ["post", "message"] = 1 := by decide
  have hc2 : List.count "message" ["post", "message"] = 1 := by decide
  simp only [List.map_cons, List.map_nil, List.sum_cons, List.sum_nil,
    hc1, hc2]
  rw [tokenTerm, tokenTerm]
  rw [if_neg (by rw [df_post]; norm_num),
    if_neg (by rw [df_msg]; norm_num)]
  rw [idf_post, idf_msg, fs_search_post, fs_search_msg]
  have htrim : Reducer.jsTrim "post_message" = "post_message" := by decide
  rw [htrim]
  have hne : ¬ ("post_message" = "") := by decide
  rw [if_neg hne]
  have hnm : normalizeForMatch (Catalog.buildSearchDoc searchCard).name
      = "searchmessages" := by decide
  have hnq : normalizeForMatch "post_message" = "postmessage" := by decide
  rw [hnm, hnq]
  rw [if_neg (by decide)]
  rw [if_neg (by decide)]
  have hpop : searchCard.popularity = Option.none := rfl
  rw [hpop]
  push_cast
  simp [Real.log_one]

theorem scoreSearch_pos : 0 < scoreOf c8Cards "post_message" searchCard := by
  rw [scoreSearch_eq]
  have hl : 0 < Real.log (6/5) := Real.log_pos (by norm_num)
  have : (0 : ℝ) < 1386/725 := by norm_num
  exact mul_pos hl this

theorem score_gap : scoreOf c8Cards "post_message" postCard
    - scoreOf c8Cards "post_message" searchCard ≥ 11/10 := by
  rw [scorePost_eq, scoreSearch_eq]
  have hl2 : 0 < Real.log 2 := Real.log_pos (by norm_num)
  have hl65 : 0 < Real.log (6/5) := Real.log_pos (by norm_num)
  nlinarith [hl2, hl65]

theorem scorePost_gt : scoreOf c8Cards "post_message" searchCard
    < scoreOf c8Cards "post_message" postCard := by
  have := score_gap
  have := scoreSearch_pos
  linarith

theorem scorePost_pos : 0 < scoreOf c8Cards "post_message" postCard := by
  have := score_gap
  have := scoreSearch_pos
  linarith

/-- C8: on the two-tool catalog (`slack:post_message` with name
`post_message`, `slack:search_messages`, both with their natural
descriptions), the BM25 query `"post_message"` with `topK = 2` and
default parameters returns `slack:post_message` as the top hit with
`slack:search_messages` as runner-up, and the winning score exceeds the
runner-up's by at least `exactMatchBoost − prefixMatchBoost = 1.1`. -/
theorem bm25_exact_name_boost :
    queryBm25 c8Cards "post_message" 2 =
      [("slack:post_message", scoreOf c8Cards "post_message" postCard),
       ("slack:search_messages", scoreOf c8Cards "post_message" searchCard)]
    ∧ (queryBm25 c8Cards "post_message" 2).map Prod.fst =
      ["slack:post_message", "slack:search_messages"]
    ∧ scoreOf c8Cards "post_message" postCard -
        scoreOf c8Cards "post_message" searchCard ≥ 11/10 := by
  have hcond : ¬ ((tokenize "post_message").length = 0
      ∨ c8Cards.length = 0) := by decide
  have hmain : queryBm25 c8Cards "post_message" 2 =
      [("slack:post_message", scoreOf c8Cards "post_message" postCard),
       ("slack:search_messages", scoreOf c8Cards "post_message" searchCard)] := by
    simp only [queryBm25]
    rw [if_neg hcond]
    simp only [c8Cards, List.map_cons, List.map_nil]
    have hid1 : postCard.toolId = "slack:post_message" := rfl
    have hid2 : searchCard.toolId = "slack:search_messages" := rfl
    rw [hid1, hid2]
    rw [show ([postCard, searchCard] : List Catalog.ToolCard) = c8Cards from rfl]
    simp only [List.filter_cons, List.filter_nil, decide_eq_true_eq,
      scorePost_pos, scoreSearch_pos, if_pos]
    have hAB : hitLE
        ("slack:post_message", scoreOf c8Cards "post_message" postCard)
        ("slack:search_messages", scoreOf c8Cards "post_message" searchCard) :=
      Or.inl scorePost_gt
    simp only [List.insertionSort, List.orderedInsert]
    rw [if_pos hAB]
    simp
  refine ⟨hmain, ?_, score_gap⟩
  rw [hmain]
  simp

end Search
